import Mathlib

/- Shallow embedding of the caption-alignment evaluation engine (eval.py).

   Strings are modelled as `List Char`; millisecond timestamps as `Int`;
   second-valued durations as `ℚ` (the Python code uses IEEE floats; we use
   exact rationals, with the source's literal thresholds 1e-6 and 0.01
   rendered as 1/1000000 and 1/100).  Python's `\w` and whitespace classes
   are modelled over their ASCII range, which covers every comparison the
   source performs on the inputs considered here. -/

/-- Apostrophe character (U+0027), used in contraction patterns. -/
def apostChar : Char := Char.ofNat 39

/-- ASCII whitespace, the default class stripped by Python `str.strip()`. -/
def isWS (c : Char) : Bool :=
  c = ' ' || c = Char.ofNat 9 || c = Char.ofNat 10 || c = Char.ofNat 13 ||
  c = Char.ofNat 11 || c = Char.ofNat 12

/-- Word character, modelling the ASCII range of Python's regex `\w`. -/
def isWordChar (c : Char) : Bool := c.isAlphanum || c = '_'

/-- Case-insensitive single-character comparison against a lowercase pattern
character, modelling `re.IGNORECASE` matching of ASCII literals. -/
def lowEq (c p : Char) : Bool := c.toLower = p

/-- Python `str.strip()` (ASCII whitespace model): drop leading and trailing
whitespace. -/
def stripL (l : List Char) : List Char :=
  ((l.dropWhile isWS).reverse.dropWhile isWS).reverse

/-- The named entities the source's comment enumerates
(`# Decode &gt; &lt; &amp; etc.`), with their decoded characters; the text
after the ampersand is listed. -/
def entityList : List (List Char × Char) :=
  [("amp;".toList, '&'), ("lt;".toList, '<'), ("gt;".toList, '>'),
   ("quot;".toList, '"'), ("#39;".toList, apostChar)]

/-- Decoded character of a complete entity body, if any. -/
def entityValue (b : List Char) : Option Char :=
  (entityList.find? (fun e => e.1 = b)).map (fun e => e.2)

/-- Whether the buffer can still grow into an entity body. -/
def entityPartial (b : List Char) : Bool :=
  entityList.any (fun e => b.isPrefixOf e.1 && decide (b ≠ e.1))

/-- Model of `html.unescape` restricted to the semicolon-terminated forms of
the common named entities: a single left-to-right pass, as `html.unescape`
performs.  The state holds the pending text read since an ampersand while it
can still become an entity body; entity bodies never contain an ampersand,
so flushed pending text needs no rescan. -/
def decodeHtmlGo : List Char → Option (List Char) → List Char
  | [], none => []
  | [], some b => '&' :: b
  | c :: rest, none =>
    if c = '&' then decodeHtmlGo rest (some []) else c :: decodeHtmlGo rest none
  | c :: rest, some b =>
    match entityValue (b ++ [c]) with
    | some d => d :: decodeHtmlGo rest none
    | none =>
      if entityPartial (b ++ [c]) then decodeHtmlGo rest (some (b ++ [c]))
      else if c = '&' then ('&' :: b) ++ decodeHtmlGo rest (some [])
      else ('&' :: b) ++ c :: decodeHtmlGo rest none

/-- `decode_html_entities` (eval.py:40-44). -/
def decodeHtml (l : List Char) : List Char := decodeHtmlGo l none

/-- Per-character body of `normalize_unicode` (eval.py:70-102): smart-quote
lookup first, then fullwidth ASCII variants U+FF01..U+FF5E shifted down by
0xFEE0, then fullwidth space U+3000, else unchanged. -/
def normalizeUnicodeChar (c : Char) : Char :=
  if c.toNat = 0x2018 || c.toNat = 0x2019 || c.toNat = 0x201A || c.toNat = 0x201B ||
      c.toNat = 0x2032 then apostChar
  else if c.toNat = 0x201C || c.toNat = 0x201D || c.toNat = 0x201E || c.toNat = 0x201F ||
      c.toNat = 0x2033 then '"'
  else if 0xFF01 ≤ c.toNat && c.toNat ≤ 0xFF5E then Char.ofNat (c.toNat - 0xFEE0)
  else if c.toNat = 0x3000 then ' '
  else c

/-- `normalize_unicode` (alias `fullwidth_to_halfwidth`) maps each character
independently. -/
def normalizeUnicode (l : List Char) : List Char := l.map normalizeUnicodeChar

/-- Substitution of the complete-marker regex `\[[^\]]+\]` by the empty
string (eval.py:31,62).  The scan is a state machine: outside a bracket,
characters are emitted; a `[` opens a buffer; the first later `]` closes it
and the span is dropped when at least one character stood between the
brackets (`[^\]]+` needs one), while a bare `[]` is emitted unchanged and
scanning resumes, exactly as `re.sub` resumes after a failed position. -/
def eventSubGo : List Char → Option (List Char) → List Char
  | [], none => []
  | [], some buf => buf.reverse
  | c :: rest, none =>
    if c = '[' then eventSubGo rest (some [c]) else c :: eventSubGo rest none
  | c :: rest, some buf =>
    if c = ']' then
      if 2 ≤ buf.length then eventSubGo rest none
      else buf.reverse ++ ']' :: eventSubGo rest none
    else eventSubGo rest (some (c :: buf))

/-- Removal of complete `[event]` markers, `EVENT_PATTERN.sub("", text)`. -/
def eventSub (l : List Char) : List Char := eventSubGo l none

/-- Substitution of `INCOMPLETE_EVENT_START = \[[^\]]*$` (eval.py:34,64):
the first `[` with no later `]` is removed together with everything after
it. -/
def startSub : List Char → List Char
  | [] => []
  | c :: rest =>
    if c = '[' then
      if ']' ∈ rest then '[' :: startSub rest else []
    else c :: startSub rest

/-- Whole-string match of `INCOMPLETE_EVENT_END = ^\w+\s*\]$` (eval.py:37):
one word, optional whitespace, then a closing bracket ending the string. -/
def matchEnd (l : List Char) : Bool :=
  let w := l.takeWhile isWordChar
  decide (w ≠ []) && decide ((l.drop w.length).dropWhile isWS = [']'])

/-- Substitution of `INCOMPLETE_EVENT_END` (eval.py:66): because the pattern
is anchored at both ends, it fires only when the entire string is the
fragment, which is then deleted. -/
def endSub (l : List Char) : List Char := if matchEnd l then [] else l

/-- `remove_events` (eval.py:53-67): complete markers, then an unterminated
opening bracket, then the whole-string trailing fragment, then strip. -/
def removeEvents (l : List Char) : List Char := stripL (endSub (startSub (eventSub l)))

/-- `is_event_only` (eval.py:47-50): text is event-only iff the cleaned text
is empty. -/
def isEventOnlyL (l : List Char) : Bool := decide (removeEvents l = [])

/-- Whitespace tokenizer used to model how `jiwer.wer` splits the joined
text stream into words; empty tokens do not arise. -/
def tokensGo : List Char → List Char → List (List Char)
  | [], cur => if cur = [] then [] else [cur.reverse]
  | c :: rest, cur =>
    if isWS c then
      if cur = [] then tokensGo rest [] else cur.reverse :: tokensGo rest []
    else tokensGo rest (c :: cur)

/-- Tokens of a character stream: maximal runs of non-whitespace. -/
def tokens (l : List Char) : List (List Char) := tokensGo l []

/-- Python `" ".join(texts)` on the per-event text list. -/
def joinSpace : List (List Char) → List Char
  | [] => []
  | [x] => x
  | x :: y :: rest => x ++ ' ' :: joinSpace (y :: rest)

/-- Literal replacement of `"\\N"` (ASS newline) by a space (eval.py:215),
as a scanner whose flag records a pending backslash. -/
def replaceAssNGo : List Char → Bool → List Char
  | [], false => []
  | [], true => ['\\']
  | c :: rest, false =>
    if c = '\\' then replaceAssNGo rest true else c :: replaceAssNGo rest false
  | c :: rest, true =>
    if c = 'N' then ' ' :: replaceAssNGo rest false
    else if c = '\\' then '\\' :: replaceAssNGo rest true
    else '\\' :: c :: replaceAssNGo rest false

/-- Python `text.replace("\\N", " ")`. -/
def replaceAssN (l : List Char) : List Char := replaceAssNGo l false

/-- Literal replacement of `"\\n"` (SRT newline) by a space (eval.py:216). -/
def replaceSrtNGo : List Char → Bool → List Char
  | [], false => []
  | [], true => ['\\']
  | c :: rest, false =>
    if c = '\\' then replaceSrtNGo rest true else c :: replaceSrtNGo rest false
  | c :: rest, true =>
    if c = 'n' then ' ' :: replaceSrtNGo rest false
    else if c = '\\' then '\\' :: replaceSrtNGo rest true
    else '\\' :: c :: replaceSrtNGo rest false

/-- Python `text.replace("\\n", " ")`. -/
def replaceSrtN (l : List Char) : List Char := replaceSrtNGo l false

/-- Literal replacement of `"..."` by a space (eval.py:217), as a scanner
counting pending dots (0, 1 or 2). -/
def replaceEllipsisGo : List Char → ℕ → List Char
  | [], pend => List.replicate pend '.'
  | c :: rest, pend =>
    if c = '.' then
      if pend = 2 then ' ' :: replaceEllipsisGo rest 0
      else replaceEllipsisGo rest (pend + 1)
    else List.replicate pend '.' ++ c :: replaceEllipsisGo rest 0

/-- Python `text.replace("...", " ")`. -/
def replaceEllipsis (l : List Char) : List Char := replaceEllipsisGo l 0

/-- Literal replacement of `"chatgpt"` by `"chat gpt"` applied to the
normalizer output (eval.py:227). -/
def replaceChatgpt : List Char → List Char
  | 'c' :: 'h' :: 'a' :: 't' :: 'g' :: 'p' :: 't' :: rest =>
      'c' :: 'h' :: 'a' :: 't' :: ' ' :: 'g' :: 'p' :: 't' :: replaceChatgpt rest
  | c :: rest => c :: replaceChatgpt rest
  | [] => []

/-- Boundary test for `\b` following a matched word character: the next
character is absent or not a word character. -/
def boundaryHead : List Char → Bool
  | [] => true
  | c :: _ => !isWordChar c

/-- Substitution of `\bwon't\b` by `"will not"` (eval.py:146), scanning left
to right with a flag recording whether the previous character was a word
character (so `\b` can be decided); after a match the scan resumes after the
matched text, whose final character is a word character. -/
def subWont (pw : Bool) : List Char → List Char
  | c1 :: c2 :: c3 :: c4 :: c5 :: rest =>
    if !pw && lowEq c1 'w' && lowEq c2 'o' && lowEq c3 'n' && c4 = apostChar &&
        lowEq c5 't' && boundaryHead rest then
      'w' :: 'i' :: 'l' :: 'l' :: ' ' :: 'n' :: 'o' :: 't' :: subWont true rest
    else c1 :: subWont (isWordChar c1) (c2 :: c3 :: c4 :: c5 :: rest)
  | c1 :: rest => c1 :: subWont (isWordChar c1) rest
  | [] => []

/-- Substitution of `\bcan't\b` by `"cannot"` (eval.py:147). -/
def subCant (pw : Bool) : List Char → List Char
  | c1 :: c2 :: c3 :: c4 :: c5 :: rest =>
    if !pw && lowEq c1 'c' && lowEq c2 'a' && lowEq c3 'n' && c4 = apostChar &&
        lowEq c5 't' && boundaryHead rest then
      'c' :: 'a' :: 'n' :: 'n' :: 'o' :: 't' :: subCant true rest
    else c1 :: subCant (isWordChar c1) (c2 :: c3 :: c4 :: c5 :: rest)
  | c1 :: rest => c1 :: subCant (isWordChar c1) rest
  | [] => []

/-- Substitution of `\bshan't\b` by `"shall not"` (eval.py:148). -/
def subShant (pw : Bool) : List Char → List Char
  | c1 :: c2 :: c3 :: c4 :: c5 :: c6 :: rest =>
    if !pw && lowEq c1 's' && lowEq c2 'h' && lowEq c3 'a' && lowEq c4 'n' &&
        c5 = apostChar && lowEq c6 't' && boundaryHead rest then
      's' :: 'h' :: 'a' :: 'l' :: 'l' :: ' ' :: 'n' :: 'o' :: 't' :: subShant true rest
    else c1 :: subShant (isWordChar c1) (c2 :: c3 :: c4 :: c5 :: c6 :: rest)
  | c1 :: rest => c1 :: subShant (isWordChar c1) rest
  | [] => []

/-- Substitution of `\bn't\b` by `" not"` (eval.py:149).  Note `\b` requires
a non-word character before the `n`, exactly as in the source pattern. -/
def subNt (pw : Bool) : List Char → List Char
  | c1 :: c2 :: c3 :: rest =>
    if !pw && lowEq c1 'n' && c2 = apostChar && lowEq c3 't' && boundaryHead rest then
      ' ' :: 'n' :: 'o' :: 't' :: subNt true rest
    else c1 :: subNt (isWordChar c1) (c2 :: c3 :: rest)
  | c1 :: rest => c1 :: subNt (isWordChar c1) rest
  | [] => []

/-- Substitution of `\blet's\b` by `"let us"` (eval.py:151). -/
def subLets (pw : Bool) : List Char → List Char
  | c1 :: c2 :: c3 :: c4 :: c5 :: rest =>
    if !pw && lowEq c1 'l' && lowEq c2 'e' && lowEq c3 't' && c4 = apostChar &&
        lowEq c5 's' && boundaryHead rest then
      'l' :: 'e' :: 't' :: ' ' :: 'u' :: 's' :: subLets true rest
    else c1 :: subLets (isWordChar c1) (c2 :: c3 :: c4 :: c5 :: rest)
  | c1 :: rest => c1 :: subLets (isWordChar c1) rest
  | [] => []

/-- Substitution of `\bI'm\b` by `"I am"` (eval.py:156), case-insensitive as
all the contraction rules are. -/
def subIm (pw : Bool) : List Char → List Char
  | c1 :: c2 :: c3 :: rest =>
    if !pw && lowEq c1 'i' && c2 = apostChar && lowEq c3 'm' && boundaryHead rest then
      'I' :: ' ' :: 'a' :: 'm' :: subIm true rest
    else c1 :: subIm (isWordChar c1) (c2 :: c3 :: rest)
  | c1 :: rest => c1 :: subIm (isWordChar c1) rest
  | [] => []

/-- Scanner for the captured-group rules `\b(\w+)'X\b → "\1 REPL"` with a
one-letter suffix X (eval.py:155,157).  The first argument is the reversed
buffer of the word run currently being read; a run can only begin where the
previous character was not a word character, which is exactly the `\b`
before `(\w+)`, and `(\w+)` is effectively the maximal run because a
shorter, backtracked run would be followed by a word character instead of
the apostrophe. -/
def grpSubGo1 (s1 : Char) (repl : List Char) : List Char → List Char → List Char
  | buf, [] => buf.reverse
  | buf, c :: rest =>
    if isWordChar c then grpSubGo1 s1 repl (c :: buf) rest
    else if c = apostChar && decide (buf ≠ []) then
      match rest with
      | d :: rest2 =>
        if lowEq d s1 && boundaryHead rest2 then
          buf.reverse ++ ' ' :: repl ++ grpSubGo1 s1 repl [] rest2
        else buf.reverse ++ apostChar :: grpSubGo1 s1 repl [] (d :: rest2)
      | [] => buf.reverse ++ [apostChar]
    else buf.reverse ++ c :: grpSubGo1 s1 repl [] rest

/-- Scanner for the captured-group rules with a two-letter suffix
(eval.py:152-154); same structure as the one-letter scanner. -/
def grpSubGo2 (s1 s2 : Char) (repl : List Char) : List Char → List Char → List Char
  | buf, [] => buf.reverse
  | buf, c :: rest =>
    if isWordChar c then grpSubGo2 s1 s2 repl (c :: buf) rest
    else if c = apostChar && decide (buf ≠ []) then
      match rest with
      | d :: e :: rest2 =>
        if lowEq d s1 && lowEq e s2 && boundaryHead rest2 then
          buf.reverse ++ ' ' :: repl ++ grpSubGo2 s1 s2 repl [] rest2
        else buf.reverse ++ apostChar :: grpSubGo2 s1 s2 repl [] (d :: e :: rest2)
      | [d] => buf.reverse ++ apostChar :: grpSubGo2 s1 s2 repl [] [d]
      | [] => buf.reverse ++ [apostChar]
    else buf.reverse ++ c :: grpSubGo2 s1 s2 repl [] rest

/-- One captured-group substitution pass with a one-letter suffix. -/
def grpSub1 (s1 : Char) (repl : List Char) (l : List Char) : List Char :=
  grpSubGo1 s1 repl [] l

/-- One captured-group substitution pass with a two-letter suffix. -/
def grpSub2 (s1 s2 : Char) (repl : List Char) (l : List Char) : List Char :=
  grpSubGo2 s1 s2 repl [] l

/-- `expand_contractions` (eval.py:139-163): the eleven ordered `re.sub`
passes, negative/longer forms first, then the generic captured-group rules,
composed in exactly the order of the source's CONTRACTIONS table (innermost
first). -/
def expandContractions (l : List Char) : List Char :=
  grpSub1 's' ('i' :: 's' :: [])
    (subIm false
      (grpSub1 'd' ('w' :: 'o' :: 'u' :: 'l' :: 'd' :: [])
        (grpSub2 'l' 'l' ('w' :: 'i' :: 'l' :: 'l' :: [])
          (grpSub2 'v' 'e' ('h' :: 'a' :: 'v' :: 'e' :: [])
            (grpSub2 'r' 'e' ('a' :: 'r' :: 'e' :: [])
              (subLets false
                (subNt false
                  (subShant false
                    (subCant false
                      (subWont false l))))))))))

/-- Caption event as delivered by the external parser (pysubs2): start/end
in integer milliseconds, an optional speaker tag (empty string when absent)
and the raw text. -/
structure SSAEvent where
  start : Int
  stop : Int
  name : List Char
  text : List Char
deriving DecidableEq

/-- Python `str.rstrip(":")`: drop every trailing colon. -/
def rstripColon (l : List Char) : List Char :=
  (l.reverse.dropWhile (fun c => c = ':')).reverse

/-- Python `str.lstrip(">")`: drop every leading greater-than sign. -/
def lstripGt (l : List Char) : List Char := l.dropWhile (fun c => c = '>')

/-- Speaker-tag normalization of `caption_to_annotation` (eval.py:190-191):
fullwidth fold, strip trailing `:`, strip leading `>`, trim whitespace. -/
def normalizeSpeakerName (l : List Char) : List Char :=
  stripL (lstripGt (rstripColon (normalizeUnicode l)))

/-- Loop body of `caption_to_annotation` (eval.py:181-194): an event-only
entry is skipped before the speaker state is consulted; a nonempty tag
updates the current speaker; every retained event emits one labelled
segment, seconds = milliseconds / 1000. -/
def timelineGo (skip : Bool) (spk : Option (List Char)) :
    List SSAEvent → List (ℚ × ℚ × Option (List Char))
  | [] => []
  | ev :: rest =>
    if skip && isEventOnlyL ev.text then timelineGo skip spk rest
    else
      ((ev.start : ℚ) / 1000, (ev.stop : ℚ) / 1000,
          if ev.name ≠ [] then some (normalizeSpeakerName ev.name) else spk) ::
        timelineGo skip (if ev.name ≠ [] then some (normalizeSpeakerName ev.name) else spk) rest

/-- `caption_to_annotation` (eval.py:171-196) as the ordered sequence of
(segment, label) assignments made into the pyannote container. -/
def captionTimeline (events : List SSAEvent) (skip : Bool) :
    List (ℚ × ℚ × Option (List Char)) :=
  timelineGo skip none events

/-- Per-event text preprocessing of `caption_to_text` (eval.py:213-217):
decode HTML entities, fold fullwidth characters, replace the two literal
newline markers and ellipses by spaces, strip. -/
def processedText (s : List Char) : List Char :=
  stripL (replaceEllipsis (replaceSrtN (replaceAssN (normalizeUnicode (decodeHtml s)))))

/-- Loop body of `caption_to_text` (eval.py:211-231) on the English path,
with the external `whisper_normalizer` English pass abstracted as the
function argument `norm`: skip event-only entries and strip markers when
`skip` is set, drop events whose processed text is empty, then expand
contractions, normalize, and apply the literal chatgpt substitution. -/
def captionTexts (norm : List Char → List Char) (skip : Bool) :
    List SSAEvent → List (List Char)
  | [] => []
  | ev :: rest =>
    if skip && isEventOnlyL (processedText ev.text) then captionTexts norm skip rest
    else if (if skip then removeEvents (processedText ev.text) else processedText ev.text) = [] then
      captionTexts norm skip rest
    else
      replaceChatgpt (norm (expandContractions
          (if skip then removeEvents (processedText ev.text) else processedText ev.text))) ::
        captionTexts norm skip rest

/-- `caption_to_text` joins the per-event normalized texts with single
spaces (eval.py:232). -/
def captionToText (norm : List Char → List Char) (skip : Bool)
    (events : List SSAEvent) : List Char :=
  joinSpace (captionTexts norm skip events)

/-- Lowercasing of a metric name, modelling `metric.lower()` on the ASCII
names involved. -/
def lowerL (l : List Char) : List Char := l.map Char.toLower

/-- Membership of a lowercased name in the supported metric set of
`evaluate_alignment` (eval.py:588-603). -/
def isValidMetricName (m : List Char) : Bool :=
  let ml := lowerL m
  ml = "der".toList || ml = "jer".toList || ml = "wer".toList ||
  ml = "sca".toList || ml = "scer".toList

/-- Error message raised for an unknown metric (eval.py:605). -/
def unknownMetricMsg (m : List Char) : List Char :=
  "Unknown metric: ".toList ++ m ++ ". Supported: der, jer, wer, sca, scer".toList

/-- Metric dispatch loop of `evaluate_alignment` (eval.py:586-605).  The
numeric values are produced by external metric libraries; the model records
which result keys are filled, in order.  An unknown name raises, which
discards every previously computed entry: the caller receives only the
error. -/
def evalMetricsGo : List (List Char) → List (List Char) →
    Except (List Char) (List (List Char))
  | [], acc => .ok acc.reverse
  | m :: rest, acc =>
    if isValidMetricName m then evalMetricsGo rest (lowerL m :: acc)
    else .error (unknownMetricMsg m)

/-- Result of the metric loop started from an empty result set. -/
def evalMetrics (metrics : List (List Char)) : Except (List Char) (List (List Char)) :=
  evalMetricsGo metrics []

/-- First metric name in the list that is not in the supported set. -/
def firstInvalid : List (List Char) → Option (List Char)
  | [] => none
  | m :: rest => if isValidMetricName m then firstInvalid rest else some m

/-- Epsilon used by the error-attribution pass (literal 1e-6, eval.py:311).
Floating-point durations are modelled as exact rationals. -/
def eps : ℚ := 1/1000000

/-- Adjacency threshold of the merge step (literal 0.01, eval.py:324). -/
def mergeGap : ℚ := 1/100

/-- Segment of the common timeline walked by the error-attribution loop
(eval.py:301-318): bounds in seconds and the multisets of reference and
mapped-hypothesis labels active on it, as lists. -/
structure CSeg where
  start : ℚ
  stop : ℚ
  rl : List ℕ
  hl : List ℕ
deriving DecidableEq

/-- Duration of a common-timeline segment. -/
def durS (s : CSeg) : ℚ := s.stop - s.start

/-- Size of a maximum matching between the two label multisets under
equality: the number of correctly identified speakers. -/
def countCorrect : List ℕ → List ℕ → ℕ
  | [], _ => 0
  | r :: rs, hs => if r ∈ hs then 1 + countCorrect rs (hs.erase r) else countCorrect rs hs

/-- Modelled from the spec: per-segment counts of pyannote's LabelMatcher
(the `der_metric.matcher_` called at eval.py:305, external to src/), the
standard identification-error decomposition: false alarm = hypothesis
speakers beyond the reference count. -/
def faCount (rl hl : List ℕ) : ℕ := hl.length - min rl.length hl.length

/-- Modelled from the spec: missed detection = reference speakers beyond the
hypothesis count. -/
def missCount (rl hl : List ℕ) : ℕ := rl.length - min rl.length hl.length

/-- Modelled from the spec: confusion = matched pairs that carry different
labels. -/
def confCount (rl hl : List ℕ) : ℕ := min rl.length hl.length - countCorrect rl hl

/-- False-alarm duration attributed to one segment (count times duration,
eval.py:307). -/
def faS (s : CSeg) : ℚ := (faCount s.rl s.hl : ℚ) * durS s

/-- Missed-detection duration attributed to one segment (eval.py:308). -/
def missS (s : CSeg) : ℚ := (missCount s.rl s.hl : ℚ) * durS s

/-- Confusion duration attributed to one segment (eval.py:309). -/
def confS (s : CSeg) : ℚ := (confCount s.rl s.hl : ℚ) * durS s

/-- Emission test of the debug loop (eval.py:311): a segment is recorded and
accumulated only when one of its three error durations exceeds epsilon. -/
def emittedB (s : CSeg) : Bool :=
  decide (eps < faS s) || decide (eps < missS s) || decide (eps < confS s)

/-- Modelled from the spec: the scalar DER aggregation (§4.6,
`DiarizationErrorRate.compute_components` of pyannote, external to src/)
sums count-times-duration over every segment of the same common timeline,
with no epsilon filter.  False-alarm component. -/
def scalarFaTotal (l : List CSeg) : ℚ := (l.map faS).sum

/-- Modelled from the spec: scalar missed-detection component. -/
def scalarMissTotal (l : List CSeg) : ℚ := (l.map missS).sum

/-- Modelled from the spec: scalar confusion component. -/
def scalarConfTotal (l : List CSeg) : ℚ := (l.map confS).sum

/-- Running false-alarm sum of the debug pass (eval.py:299,316): only
emitted segments contribute. -/
def debugFaTotal (l : List CSeg) : ℚ := ((l.filter emittedB).map faS).sum

/-- Running missed-detection sum of the debug pass (eval.py:317). -/
def debugMissTotal (l : List CSeg) : ℚ := ((l.filter emittedB).map missS).sum

/-- Running confusion sum of the debug pass (eval.py:318). -/
def debugConfTotal (l : List CSeg) : ℚ := ((l.filter emittedB).map confS).sum

/-- Number of segments suppressed by the epsilon filter. -/
def droppedCount (l : List CSeg) : ℕ := (l.filter (fun s => !emittedB s)).length

/-- Insertion into a sorted list of naturals. -/
def insertSorted (n : ℕ) : List ℕ → List ℕ
  | [] => [n]
  | m :: l => if n ≤ m then n :: m :: l else m :: insertSorted n l

/-- Insertion sort, modelling Python `tuple(sorted(...))` on label lists
(eval.py:313-314). -/
def sortNat (l : List ℕ) : List ℕ := l.foldr insertSorted []

/-- Error record appended by the debug loop (eval.py:315): segment bounds,
sorted label tuples, and the three attributed durations. -/
structure ErrRec where
  start : ℚ
  stop : ℚ
  rl : List ℕ
  hl : List ℕ
  fa : ℚ
  miss : ℚ
  conf : ℚ
deriving DecidableEq

/-- Record built from an emitted segment (eval.py:313-315). -/
def recOf (s : CSeg) : ErrRec :=
  ⟨s.start, s.stop, sortNat s.rl, sortNat s.hl, faS s, missS s, confS s⟩

/-- The emitted error segments, in timeline order (eval.py:311-315). -/
def errorRecs (l : List CSeg) : List ErrRec :=
  l.filterMap (fun s => if emittedB s then some (recOf s) else none)

/-- One step of the merge loop (eval.py:322-328), acting on the reversed
accumulator so the latest record is at the head: a new segment is folded
into the last record when both label tuples agree and the boundary gap is
under 0.01 s, summing the three durations and moving the end boundary;
otherwise it starts a new record. -/
def mergeRev (acc : List ErrRec) (s : ErrRec) : List ErrRec :=
  match acc with
  | last :: rest =>
    if last.rl = s.rl ∧ last.hl = s.hl ∧ |last.stop - s.start| < mergeGap then
      { last with stop := s.stop, fa := last.fa + s.fa,
                  miss := last.miss + s.miss, conf := last.conf + s.conf } :: rest
    else s :: last :: rest
  | [] => [s]

/-- The merged record list (eval.py:320-328). -/
def mergeRecs (l : List ErrRec) : List ErrRec := (l.foldl mergeRev []).reverse

/-- Merged error intervals produced from a common timeline: emission filter
then merge, eval.py:301-328. -/
def mergedErrors (l : List CSeg) : List ErrRec := mergeRecs (errorRecs l)

/-- Relation between consecutive merged records: if their label tuples
agree, their boundary gap is at least the merge threshold (otherwise the
merge would have coalesced them). -/
def adjacentGapOk (a b : ErrRec) : Prop :=
  a.rl = b.rl ∧ a.hl = b.hl → mergeGap ≤ |a.stop - b.start|

/-- Record obtained by folding `b` into `a` in the merge step: the end
boundary moves to `b`'s and the three durations are summed. -/
def mergedPair (a b : ErrRec) : ErrRec :=
  { a with stop := b.stop, fa := a.fa + b.fa, miss := a.miss + b.miss,
           conf := a.conf + b.conf }

/-- Map with the element index, used to state the timeline characterization. -/
def idxMap {α β : Type} (f : ℕ → α → β) : List α → List β
  | [] => []
  | a :: l => f 0 a :: idxMap (fun i => f (i + 1)) l

/-- Events retained by the builder: with `skip` set, event-only entries are
dropped. -/
def retainedEvents (events : List SSAEvent) (skip : Bool) : List SSAEvent :=
  events.filter (fun e => !(skip && isEventOnlyL e.text))

/-- Current speaker after a list of retained events, following the spec's
words: the normalized tag of the most recent tagged event, null before any
tag is seen. -/
def specCurrentSpeaker (evs : List SSAEvent) : Option (List Char) :=
  ((evs.filter (fun e => decide (e.name ≠ []))).getLast?).map
    (fun e => normalizeSpeakerName e.name)

/-- Character class of an already-normalized ASCII-lowercase token stream:
lowercase letters, digits and spaces. -/
def normChar (c : Char) : Bool :=
  (decide (97 ≤ c.toNat) && decide (c.toNat ≤ 122)) ||
  (decide (48 ≤ c.toNat) && decide (c.toNat ≤ 57)) || c = ' '

/-- The in-repository part of the per-event text-normalization pipeline on
the English `skip_events` path (eval.py:213-225): preprocessing, event
marker removal, contraction expansion; the external whisper normalizer
follows it in the source and is outside this composition. -/
def textNormalize (s : List Char) : List Char :=
  expandContractions (removeEvents (processedText s))

/-- C8: contraction expansion applies the ordered rules, negative and longer
forms first, and no token is double-expanded: normalizing a contracted
"can" plus apostrophe plus "t" yields the single token "cannot", and
"they" plus apostrophe plus "ve" yields the tokens "they" and "have"; both
results are fixed points of a second expansion pass. -/
theorem c8_contraction_scenarios :
    tokens (expandContractions ('c' :: 'a' :: 'n' :: apostChar :: 't' :: [])) =
      ["cannot".toList] ∧
    tokens (expandContractions ('t' :: 'h' :: 'e' :: 'y' :: apostChar :: 'v' :: 'e' :: [])) =
      ["they".toList, "have".toList] ∧
    expandContractions (expandContractions ('c' :: 'a' :: 'n' :: apostChar :: 't' :: [])) =
      expandContractions ('c' :: 'a' :: 'n' :: apostChar :: 't' :: []) ∧
    expandContractions
        (expandContractions ('t' :: 'h' :: 'e' :: 'y' :: apostChar :: 'v' :: 'e' :: [])) =
      expandContractions ('t' :: 'h' :: 'e' :: 'y' :: apostChar :: 'v' :: 'e' :: []) := by
  decide

/-- C3: a metrics list whose first unsupported name (case-insensitively
outside der, jer, wer, sca, scer) is `bad` makes the evaluation loop fail
with an error carrying `bad` and the supported set, and the caller receives
no partial results: the loop never returns an ok payload. -/
theorem c3_unknown_metric_fails (metrics : List (List Char)) (bad : List Char)
    (h : firstInvalid metrics = some bad) :
    evalMetrics metrics = .error (unknownMetricMsg bad) ∧
    ∀ r, evalMetrics metrics ≠ .ok r := by
  have key : ∀ ms acc, firstInvalid ms = some bad →
      evalMetricsGo ms acc = .error (unknownMetricMsg bad) := by
    intro ms
    induction ms with
    | nil => intro acc hh; simp [firstInvalid] at hh
    | cons m rest ih =>
      intro acc hh
      by_cases hv : isValidMetricName m
      · rw [firstInvalid] at hh
        rw [if_pos hv] at hh
        rw [evalMetricsGo, if_pos hv]
        exact ih _ hh
      · rw [firstInvalid] at hh
        rw [if_neg hv] at hh
        rw [evalMetricsGo, if_neg hv]
        rw [Option.some_inj] at hh
        rw [hh]
  refine ⟨key metrics [] h, ?_⟩
  intro r hr
  rw [evalMetrics] at hr
  rw [key metrics [] h] at hr
  exact Except.noConfusion hr

/-- Witness for C3: the list der, bogus, wer fails on the name "bogus" with
the full message, and produces no ok result. -/
theorem c3_unknown_metric_fails_witness :
    evalMetrics ["der".toList, "bogus".toList, "wer".toList] =
      .error (unknownMetricMsg "bogus".toList) ∧
    ∀ r, evalMetrics ["der".toList, "bogus".toList, "wer".toList] ≠ .ok r :=
  c3_unknown_metric_fails _ _ (by decide)

/-- Bound relating a filtered running sum to the unfiltered total: the
filter only removes values, and each removed segment contributes at most
epsilon to the component `g`. -/
theorem filterSum_bound (g : CSeg → ℚ) (l : List CSeg)
    (hg : ∀ s ∈ l, 0 ≤ g s) (hdrop : ∀ s ∈ l, emittedB s = false → g s ≤ eps) :
    ((l.filter emittedB).map g).sum ≤ (l.map g).sum ∧
    (l.map g).sum - ((l.filter emittedB).map g).sum ≤ (droppedCount l : ℚ) * eps := by
  induction l with
  | nil => simp [droppedCount]
  | cons s t ih =>
    have hgs : 0 ≤ g s := hg s (by simp)
    have hgt : ∀ x ∈ t, 0 ≤ g x := fun x hx => hg x (by simp [hx])
    have hdt : ∀ x ∈ t, emittedB x = false → g x ≤ eps :=
      fun x hx => hdrop x (by simp [hx])
    obtain ⟨ih1, ih2⟩ := ih hgt hdt
    cases he : emittedB s with
    | true =>
      have hd : droppedCount (s :: t) = droppedCount t := by
        simp [droppedCount, List.filter, he]
      rw [List.filter_cons_of_pos he]
      simp only [List.map_cons, List.sum_cons, hd]
      constructor
      · linarith
      · linarith
    | false =>
      have hse : g s ≤ eps := hdrop s (by simp) he
      have hd : droppedCount (s :: t) = droppedCount t + 1 := by
        simp [droppedCount, List.filter, he, Nat.add_comm]
      rw [List.filter_cons_of_neg (by simp [he])]
      simp only [List.map_cons, List.sum_cons, hd]
      constructor
      · linarith
      · push_cast
        linarith

/-- C1 counterexample: on a common timeline with two hypothesis-only
segments of duration exactly 1e-6 s each, the debug pass suppresses both
(neither exceeds epsilon) so its running false-alarm sum is 0, while the
scalar aggregation totals 2e-6; the difference exceeds the claimed 1e-6
tolerance. -/
theorem c1_counterexample :
    debugFaTotal [⟨0, 1/1000000, [], [0]⟩, ⟨1, 1 + 1/1000000, [], [1]⟩] = 0 ∧
    scalarFaTotal [⟨0, 1/1000000, [], [0]⟩, ⟨1, 1 + 1/1000000, [], [1]⟩] = 2/1000000 ∧
    ¬ (|debugFaTotal [⟨0, 1/1000000, [], [0]⟩, ⟨1, 1 + 1/1000000, [], [1]⟩] -
        scalarFaTotal [⟨0, 1/1000000, [], [0]⟩, ⟨1, 1 + 1/1000000, [], [1]⟩]| ≤ eps) := by
  have h1 : scalarFaTotal [⟨0, 1/1000000, [], [0]⟩, ⟨1, 1 + 1/1000000, [], [1]⟩]
      = 2/1000000 := by
    norm_num [scalarFaTotal, faS, faCount, durS]
  have h2 : debugFaTotal [⟨0, 1/1000000, [], [0]⟩, ⟨1, 1 + 1/1000000, [], [1]⟩] = 0 := by
    norm_num [debugFaTotal, faS, missS, confS, faCount, missCount, confCount,
      countCorrect, durS, emittedB, eps, List.filter]
  refine ⟨h2, h1, ?_⟩
  rw [h1, h2]
  rw [show ((0 : ℚ) - 2/1000000) = -(2/1000000) by ring, abs_neg,
    abs_of_nonneg (by norm_num)]
  rw [eps]
  norm_num

/-- C1 amended: the running sums over the emitted segments never exceed the
scalar component totals computed over the same common timeline, and each
differs from its total by at most epsilon per suppressed segment (so the
claimed 1e-6 agreement holds whenever at most one segment is filtered
out). -/
theorem c1_epsilon_filter_bound (l : List CSeg) (h : ∀ s ∈ l, s.start ≤ s.stop) :
    debugFaTotal l ≤ scalarFaTotal l ∧
    scalarFaTotal l - debugFaTotal l ≤ (droppedCount l : ℚ) * eps ∧
    debugMissTotal l ≤ scalarMissTotal l ∧
    scalarMissTotal l - debugMissTotal l ≤ (droppedCount l : ℚ) * eps ∧
    debugConfTotal l ≤ scalarConfTotal l ∧
    scalarConfTotal l - debugConfTotal l ≤ (droppedCount l : ℚ) * eps := by
  have hdur : ∀ s ∈ l, (0 : ℚ) ≤ durS s := by
    intro s hs
    have := h s hs
    rw [durS]
    linarith
  have hne : ∀ s ∈ l, emittedB s = false →
      faS s ≤ eps ∧ missS s ≤ eps ∧ confS s ≤ eps := by
    intro s hs he
    rw [emittedB] at he
    simp only [Bool.or_eq_false_iff, decide_eq_false_iff_not, not_lt] at he
    exact ⟨he.1.1, he.1.2, he.2⟩
  have hfa := filterSum_bound faS l
    (fun s hs => mul_nonneg (Nat.cast_nonneg _) (hdur s hs))
    (fun s hs he => (hne s hs he).1)
  have hmi := filterSum_bound missS l
    (fun s hs => mul_nonneg (Nat.cast_nonneg _) (hdur s hs))
    (fun s hs he => (hne s hs he).2.1)
  have hco := filterSum_bound confS l
    (fun s hs => mul_nonneg (Nat.cast_nonneg _) (hdur s hs))
    (fun s hs he => (hne s hs he).2.2)
  exact ⟨hfa.1, hfa.2, hmi.1, hmi.2, hco.1, hco.2⟩

/-- Witness for C1: the amended bound evaluated on the counterexample
timeline, whose two segments are both suppressed. -/
theorem c1_epsilon_filter_bound_witness :
    debugFaTotal [⟨0, 1/1000000, [], [0]⟩, ⟨1, 1 + 1/1000000, [], [1]⟩] ≤
      scalarFaTotal [⟨0, 1/1000000, [], [0]⟩, ⟨1, 1 + 1/1000000, [], [1]⟩] ∧
    scalarFaTotal [⟨0, 1/1000000, [], [0]⟩, ⟨1, 1 + 1/1000000, [], [1]⟩] -
      debugFaTotal [⟨0, 1/1000000, [], [0]⟩, ⟨1, 1 + 1/1000000, [], [1]⟩] ≤
      (droppedCount [⟨0, 1/1000000, [], [0]⟩, ⟨1, 1 + 1/1000000, [], [1]⟩] : ℚ) * eps ∧
    debugMissTotal [⟨0, 1/1000000, [], [0]⟩, ⟨1, 1 + 1/1000000, [], [1]⟩] ≤
      scalarMissTotal [⟨0, 1/1000000, [], [0]⟩, ⟨1, 1 + 1/1000000, [], [1]⟩] ∧
    scalarMissTotal [⟨0, 1/1000000, [], [0]⟩, ⟨1, 1 + 1/1000000, [], [1]⟩] -
      debugMissTotal [⟨0, 1/1000000, [], [0]⟩, ⟨1, 1 + 1/1000000, [], [1]⟩] ≤
      (droppedCount [⟨0, 1/1000000, [], [0]⟩, ⟨1, 1 + 1/1000000, [], [1]⟩] : ℚ) * eps ∧
    debugConfTotal [⟨0, 1/1000000, [], [0]⟩, ⟨1, 1 + 1/1000000, [], [1]⟩] ≤
      scalarConfTotal [⟨0, 1/1000000, [], [0]⟩, ⟨1, 1 + 1/1000000, [], [1]⟩] ∧
    scalarConfTotal [⟨0, 1/1000000, [], [0]⟩, ⟨1, 1 + 1/1000000, [], [1]⟩] -
      debugConfTotal [⟨0, 1/1000000, [], [0]⟩, ⟨1, 1 + 1/1000000, [], [1]⟩] ≤
      (droppedCount [⟨0, 1/1000000, [], [0]⟩, ⟨1, 1 + 1/1000000, [], [1]⟩] : ℚ) * eps :=
  c1_epsilon_filter_bound _ (by
    intro s hs
    simp only [List.mem_cons, List.not_mem_nil, or_false] at hs
    rcases hs with rfl | rfl <;> norm_num)

/-- Sorted insertion grows the length by one. -/
theorem insertSorted_length (n : ℕ) (l : List ℕ) :
    (insertSorted n l).length = l.length + 1 := by
  induction l with
  | nil => rfl
  | cons m t ih =>
    rw [insertSorted]
    by_cases hc : n ≤ m
    · rw [if_pos hc]
      rfl
    · rw [if_neg hc]
      simp [ih]

/-- Sorting a label tuple preserves its length. -/
theorem sortNat_length (l : List ℕ) : (sortNat l).length = l.length := by
  rw [sortNat]
  induction l with
  | nil => rfl
  | cons m t ih => simp [List.foldr_cons, insertSorted_length, ih]

/-- Every record in the accumulator of the merge fold satisfies a predicate
that holds on the inputs and is closed under merging two records with equal
label tuples. -/
theorem foldl_mergeRev_invariant (P : ErrRec → Prop)
    (hmerge : ∀ a b, P a → P b → a.rl = b.rl → a.hl = b.hl →
      P { a with stop := b.stop, fa := a.fa + b.fa,
                 miss := a.miss + b.miss, conf := a.conf + b.conf }) :
    ∀ (l acc : List ErrRec), (∀ r ∈ l, P r) → (∀ r ∈ acc, P r) →
      ∀ r ∈ l.foldl mergeRev acc, P r := by
  intro l
  induction l with
  | nil =>
    intro acc _ hacc r hr
    rw [List.foldl_nil] at hr
    exact hacc r hr
  | cons s t ih =>
    intro acc hl hacc r hr
    rw [List.foldl_cons] at hr
    have hps : P s := hl s (List.mem_cons_self _ _)
    refine ih (mergeRev acc s) (fun x hx => hl x (List.mem_cons_of_mem _ hx)) ?_ r hr
    intro x hx
    cases acc with
    | nil =>
      simp only [mergeRev, List.mem_singleton] at hx
      rw [hx]
      exact hps
    | cons last rest =>
      simp only [mergeRev] at hx
      by_cases hc : last.rl = s.rl ∧ last.hl = s.hl ∧ |last.stop - s.start| < mergeGap
      · rw [if_pos hc] at hx
        rcases List.mem_cons.mp hx with hx | hx
        · rw [hx]
          exact hmerge last s (hacc last (List.mem_cons_self _ _)) hps hc.1 hc.2.1
        · exact hacc x (List.mem_cons_of_mem _ hx)
      · rw [if_neg hc] at hx
        rcases List.mem_cons.mp hx with hx | hx
        · rw [hx]
          exact hps
        · exact hacc x hx

/-- Membership version of the invariant for the merged output. -/
theorem mergeRecs_invariant (P : ErrRec → Prop)
    (hmerge : ∀ a b, P a → P b → a.rl = b.rl → a.hl = b.hl →
      P { a with stop := b.stop, fa := a.fa + b.fa,
                 miss := a.miss + b.miss, conf := a.conf + b.conf })
    (l : List ErrRec) (hl : ∀ r ∈ l, P r) : ∀ r ∈ mergeRecs l, P r := by
  intro r hr
  rw [mergeRecs, List.mem_reverse] at hr
  exact foldl_mergeRev_invariant P hmerge l [] hl (by intro x hx; cases hx) r hr

/-- C2 counterexample: a single common-timeline segment of duration 1 s with
two reference speakers and one mismatching hypothesis speaker is emitted as
one merged interval with missed = 1 s and confusion = 1 s above epsilon but
false alarm = 0 below it: exactly two of the three durations exceed epsilon,
a case the claim rules out (it allows only one, or all three, above). -/
theorem c2_counterexample :
    mergedErrors [⟨0, 1, [0, 1], [2]⟩] = [⟨0, 1, [0, 1], [2], 0, 1, 1⟩] ∧
    ∃ r ∈ mergedErrors [⟨0, 1, [0, 1], [2]⟩],
      ¬ ((eps < r.miss ∧ r.fa < eps ∧ r.conf < eps) ∨
         (eps < r.fa ∧ r.miss < eps ∧ r.conf < eps) ∨
         (eps < r.conf ∧ r.fa < eps ∧ r.miss < eps) ∨
         (eps < r.fa ∧ eps < r.miss ∧ eps < r.conf)) := by
  have hm : mergedErrors [⟨0, 1, [0, 1], [2]⟩] = [⟨0, 1, [0, 1], [2], 0, 1, 1⟩] := by
    norm_num [mergedErrors, errorRecs, mergeRecs, mergeRev, recOf, emittedB,
      faS, missS, confS, faCount, missCount, confCount, countCorrect, durS,
      sortNat, insertSorted, eps, List.filterMap]
  refine ⟨hm, ⟨0, 1, [0, 1], [2], 0, 1, 1⟩, ?_, ?_⟩
  · rw [hm]
    exact List.mem_singleton.mpr rfl
  · norm_num [eps]

/-- C2 amended: every merged interval has at least one of the three
durations above epsilon, and the missed and false-alarm durations are never
both above epsilon — so an interval is a pure MISS, FA or CONF when exactly
one duration exceeds epsilon and the others stay below, and mixed otherwise,
where the mixed case means confusion together with exactly one of missed or
false alarm (all three above epsilon cannot occur). -/
theorem c2_merged_classification (l : List CSeg) (h : ∀ s ∈ l, s.start ≤ s.stop) :
    ∀ r ∈ mergedErrors l,
      (eps < r.fa ∨ eps < r.miss ∨ eps < r.conf) ∧ ¬ (eps < r.fa ∧ eps < r.miss) := by
  have hP := mergeRecs_invariant (fun r =>
      (eps < r.fa ∨ eps < r.miss ∨ eps < r.conf) ∧
      0 ≤ r.fa ∧ 0 ≤ r.miss ∧ 0 ≤ r.conf ∧
      (r.hl.length ≤ r.rl.length → r.fa = 0) ∧
      (r.rl.length ≤ r.hl.length → r.miss = 0))
    (by
      intro a b ha hb hrl hhl
      obtain ⟨hae, haf, ham, hac, hafz, hamz⟩ := ha
      obtain ⟨hbe, hbf, hbm, hbc, hbfz, hbmz⟩ := hb
      dsimp only
      refine ⟨?_, by linarith, by linarith, by linarith, ?_, ?_⟩
      · rcases hae with h1 | h1 | h1
        · exact Or.inl (by linarith)
        · exact Or.inr (Or.inl (by linarith))
        · exact Or.inr (Or.inr (by linarith))
      · intro hle
        have h1 := hafz hle
        have h2 := hbfz (by rw [← hrl, ← hhl]; exact hle)
        linarith
      · intro hle
        have h1 := hamz hle
        have h2 := hbmz (by rw [← hrl, ← hhl]; exact hle)
        linarith)
    (errorRecs l)
    (by
      intro r hr
      rw [errorRecs, List.mem_filterMap] at hr
      obtain ⟨s, hsl, hsr⟩ := hr
      by_cases hem : emittedB s = true
      · rw [if_pos hem, Option.some_inj] at hsr
        rw [← hsr]
        have hdur : (0 : ℚ) ≤ durS s := by
          have := h s hsl
          rw [durS]
          linarith
        have hememb : eps < faS s ∨ eps < missS s ∨ eps < confS s := by
          rw [emittedB] at hem
          simp only [Bool.or_eq_true, decide_eq_true_eq] at hem
          tauto
        refine ⟨hememb, mul_nonneg (Nat.cast_nonneg _) hdur,
          mul_nonneg (Nat.cast_nonneg _) hdur, mul_nonneg (Nat.cast_nonneg _) hdur,
          ?_, ?_⟩
        · intro hle
          rw [recOf] at hle
          simp only [sortNat_length] at hle
          have hz : faCount s.rl s.hl = 0 := by
            rw [faCount, min_eq_right hle]
            exact Nat.sub_self _
          rw [recOf]
          simp only [faS, hz, Nat.cast_zero, zero_mul]
        · intro hle
          rw [recOf] at hle
          simp only [sortNat_length] at hle
          have hz : missCount s.rl s.hl = 0 := by
            rw [missCount, min_eq_left hle]
            exact Nat.sub_self _
          rw [recOf]
          simp only [missS, hz, Nat.cast_zero, zero_mul]
      · rw [if_neg hem] at hsr
        exact Option.noConfusion hsr)
  intro r hr
  obtain ⟨hem, hf0, hm0, hc0, hfz, hmz⟩ := hP r hr
  refine ⟨hem, ?_⟩
  rintro ⟨hfa, hmiss⟩
  rcases le_total r.hl.length r.rl.length with hle | hle
  · rw [hfz hle] at hfa
    rw [eps] at hfa
    norm_num at hfa
  · rw [hmz hle] at hmiss
    rw [eps] at hmiss
    norm_num at hmiss

/-- Witness for C2: the amended classification evaluated at the merged
interval of the counterexample timeline. -/
theorem c2_merged_classification_witness :
    (eps < (⟨0, 1, [0, 1], [2], 0, 1, 1⟩ : ErrRec).fa ∨
     eps < (⟨0, 1, [0, 1], [2], 0, 1, 1⟩ : ErrRec).miss ∨
     eps < (⟨0, 1, [0, 1], [2], 0, 1, 1⟩ : ErrRec).conf) ∧
    ¬ (eps < (⟨0, 1, [0, 1], [2], 0, 1, 1⟩ : ErrRec).fa ∧
       eps < (⟨0, 1, [0, 1], [2], 0, 1, 1⟩ : ErrRec).miss) :=
  c2_merged_classification [⟨0, 1, [0, 1], [2]⟩]
    (by
      intro s hs
      simp only [List.mem_cons, List.not_mem_nil, or_false] at hs
      rw [hs]
      norm_num)
    ⟨0, 1, [0, 1], [2], 0, 1, 1⟩
    (by
      have hm : mergedErrors [⟨0, 1, [0, 1], [2]⟩] = [⟨0, 1, [0, 1], [2], 0, 1, 1⟩] := by
        norm_num [mergedErrors, errorRecs, mergeRecs, mergeRev, recOf, emittedB,
          faS, missS, confS, faCount, missCount, confCount, countCorrect, durS,
          sortNat, insertSorted, eps, List.filterMap]
      rw [hm]
      exact List.mem_singleton.mpr rfl)

/-- One merge step adds the new segment's component to the accumulator's
component sum, for any component that is additive under record merging. -/
theorem mergeRev_sum (f : ErrRec → ℚ) (hf : ∀ a b, f (mergedPair a b) = f a + f b)
    (acc : List ErrRec) (s : ErrRec) :
    ((mergeRev acc s).map f).sum = (acc.map f).sum + f s := by
  cases acc with
  | nil => simp [mergeRev]
  | cons last rest =>
    simp only [mergeRev]
    by_cases hc : last.rl = s.rl ∧ last.hl = s.hl ∧ |last.stop - s.start| < mergeGap
    · rw [if_pos hc]
      have := hf last s
      rw [mergedPair] at this
      simp only [List.map_cons, List.sum_cons, this]
      ring
    · rw [if_neg hc]
      simp only [List.map_cons, List.sum_cons]
      ring

/-- The merge fold preserves component sums. -/
theorem foldl_mergeRev_sum (f : ErrRec → ℚ) (hf : ∀ a b, f (mergedPair a b) = f a + f b) :
    ∀ (l acc : List ErrRec),
      ((l.foldl mergeRev acc).map f).sum = (acc.map f).sum + (l.map f).sum := by
  intro l
  induction l with
  | nil => intro acc; simp
  | cons s t ih =>
    intro acc
    rw [List.foldl_cons, ih, mergeRev_sum f hf]
    simp only [List.map_cons, List.sum_cons]
    ring

/-- The merged output has the same component sum as its input, for each
additive component. -/
theorem mergeRecs_sum (f : ErrRec → ℚ) (hf : ∀ a b, f (mergedPair a b) = f a + f b)
    (l : List ErrRec) : ((mergeRecs l).map f).sum = (l.map f).sum := by
  rw [mergeRecs, List.map_reverse, List.sum_reverse, foldl_mergeRev_sum f hf l []]
  simp

/-- The merge fold keeps the reversed accumulator pairwise separated: a new
record is only started when the previous one cannot absorb the segment, and
updating the head record changes neither its start nor its labels. -/
theorem foldl_mergeRev_chain :
    ∀ (l acc : List ErrRec), List.Chain' (flip adjacentGapOk) acc →
      List.Chain' (flip adjacentGapOk) (l.foldl mergeRev acc) := by
  intro l
  induction l with
  | nil => intro acc h; exact h
  | cons s t ih =>
    intro acc h
    rw [List.foldl_cons]
    refine ih _ ?_
    cases acc with
    | nil => simp [mergeRev]
    | cons last rest =>
      simp only [mergeRev]
      by_cases hc : last.rl = s.rl ∧ last.hl = s.hl ∧ |last.stop - s.start| < mergeGap
      · rw [if_pos hc]
        rw [List.chain'_cons'] at h ⊢
        refine ⟨?_, h.2⟩
        intro y hy
        have hlast := h.1 y hy
        rw [flip] at hlast ⊢
        rw [adjacentGapOk] at hlast ⊢
        intro hlab
        exact hlast hlab
      · rw [if_neg hc]
        rw [List.chain'_cons]
        refine ⟨?_, h⟩
        rw [flip, adjacentGapOk]
        intro hlab
        by_contra hgap
        rw [not_le] at hgap
        exact hc ⟨hlab.1, hlab.2, hgap⟩

/-- C4: the merge loop preserves each per-cause total (false alarm, missed,
confusion sums over all records are unchanged); in the merged output no
record is immediately followed within 0.01 s by a record with the same two
label tuples; and a further segment whose labels match the current last
record and whose boundary gap is under 0.01 s is folded into that record,
keeping the record count and summing the durations while moving the end
boundary. -/
theorem c4_merge_properties (l : List ErrRec) :
    ((mergeRecs l).map ErrRec.fa).sum = (l.map ErrRec.fa).sum ∧
    ((mergeRecs l).map ErrRec.miss).sum = (l.map ErrRec.miss).sum ∧
    ((mergeRecs l).map ErrRec.conf).sum = (l.map ErrRec.conf).sum ∧
    List.Chain' adjacentGapOk (mergeRecs l) ∧
    (∀ (s last : ErrRec), (mergeRecs l).getLast? = some last → last.rl = s.rl →
      last.hl = s.hl → |last.stop - s.start| < mergeGap →
      (mergeRecs (l ++ [s])).length = (mergeRecs l).length ∧
      (mergeRecs (l ++ [s])).getLast? = some (mergedPair last s)) := by
  refine ⟨mergeRecs_sum _ (fun a b => rfl) l, mergeRecs_sum _ (fun a b => rfl) l,
    mergeRecs_sum _ (fun a b => rfl) l, ?_, ?_⟩
  · rw [mergeRecs, List.chain'_reverse]
    exact foldl_mergeRev_chain l [] (by simp)
  · intro s last hlast hrl hhl hgap
    rw [mergeRecs, List.getLast?_reverse] at hlast
    rw [mergeRecs, mergeRecs, List.foldl_append, List.foldl_cons, List.foldl_nil]
    cases hfold : List.foldl mergeRev [] l with
    | nil => rw [hfold] at hlast; exact Option.noConfusion hlast
    | cons a rest =>
      rw [hfold] at hlast
      rw [List.head?_cons, Option.some_inj] at hlast
      rw [hlast]
      have hcond : last.rl = s.rl ∧ last.hl = s.hl ∧ |last.stop - s.start| < mergeGap :=
        ⟨hrl, hhl, hgap⟩
      simp only [mergeRev, if_pos hcond]
      constructor
      · simp
      · rw [List.getLast?_reverse, List.head?_cons]
        rfl

/-- Witness for C4: a single record followed by a segment with the same
label tuples and a zero boundary gap is folded into it; totals and the
separation chain evaluated on the same input. -/
theorem c4_merge_properties_witness :
    ((mergeRecs [(⟨0, 1, [0], [1], 0, 0, 1⟩ : ErrRec)]).map ErrRec.fa).sum =
      ([(⟨0, 1, [0], [1], 0, 0, 1⟩ : ErrRec)].map ErrRec.fa).sum ∧
    List.Chain' adjacentGapOk (mergeRecs [(⟨0, 1, [0], [1], 0, 0, 1⟩ : ErrRec)]) ∧
    (mergeRecs ([(⟨0, 1, [0], [1], 0, 0, 1⟩ : ErrRec)] ++ [⟨1, 2, [0], [1], 0, 0, 1⟩])).length =
      (mergeRecs [(⟨0, 1, [0], [1], 0, 0, 1⟩ : ErrRec)]).length ∧
    (mergeRecs ([(⟨0, 1, [0], [1], 0, 0, 1⟩ : ErrRec)] ++ [⟨1, 2, [0], [1], 0, 0, 1⟩])).getLast? =
      some (mergedPair ⟨0, 1, [0], [1], 0, 0, 1⟩ ⟨1, 2, [0], [1], 0, 0, 1⟩) := by
  have h := c4_merge_properties [(⟨0, 1, [0], [1], 0, 0, 1⟩ : ErrRec)]
  have h5 := h.2.2.2.2 ⟨1, 2, [0], [1], 0, 0, 1⟩ ⟨0, 1, [0], [1], 0, 0, 1⟩
    (by rfl) rfl rfl (by norm_num [mergeGap])
  exact ⟨h.1, h.2.2.2.1, h5.1, h5.2⟩


/-- Inside an open bracket buffer, reading bracket-free content and then the
closing bracket drops the whole span when at least two characters (the
bracket plus one content character) are buffered. -/
theorem eventSubGo_close : ∀ (mid buf suf : List Char), ']' ∉ mid →
    2 ≤ buf.length + mid.length →
    eventSubGo (mid ++ ']' :: suf) (some buf) = eventSubGo suf none := by
  intro mid
  induction mid with
  | nil =>
    intro buf suf _ hlen
    simp only [List.length_nil, Nat.add_zero] at hlen
    show eventSubGo (']' :: suf) (some buf) = eventSubGo suf none
    rw [eventSubGo]
    rw [if_pos rfl, if_pos hlen]
  | cons c mt ih =>
    intro buf suf hmem hlen
    have hc : c ≠ ']' := fun h => hmem (h ▸ List.mem_cons_self _ _)
    show eventSubGo (c :: (mt ++ ']' :: suf)) (some buf) = eventSubGo suf none
    rw [eventSubGo, if_neg hc]
    refine ih (c :: buf) suf (fun h => hmem (List.mem_cons_of_mem _ h)) ?_
    simp only [List.length_cons] at hlen ⊢
    omega

/-- Left-to-right law for complete-marker removal: a prefix without opening
brackets passes through, and a marker consisting of an opening bracket,
nonempty bracket-free content and the first closing bracket is deleted. -/
theorem eventSub_marker : ∀ (pre : List Char), '[' ∉ pre → ∀ mid suf, ']' ∉ mid →
    mid ≠ [] → eventSub (pre ++ '[' :: (mid ++ ']' :: suf)) = pre ++ eventSub suf := by
  intro pre
  induction pre with
  | nil =>
    intro _ mid suf hmid hne
    show eventSubGo ('[' :: (mid ++ ']' :: suf)) none = eventSubGo suf none
    rw [eventSubGo, if_pos rfl]
    refine eventSubGo_close mid ['['] suf hmid ?_
    cases mid with
    | nil => exact absurd rfl hne
    | cons c t => simp only [List.length_cons, List.length_singleton]; omega
  | cons c pt ih =>
    intro hpre mid suf hmid hne
    have hc : c ≠ '[' := fun h => hpre (h ▸ List.mem_cons_self _ _)
    have h2 := ih (fun h => hpre (List.mem_cons_of_mem _ h)) mid suf hmid hne
    show eventSubGo (c :: (pt ++ '[' :: (mid ++ ']' :: suf))) none =
      c :: (pt ++ eventSub suf)
    rw [eventSubGo, if_neg hc]
    rw [eventSub] at h2
    rw [h2]

/-- A string without opening brackets is untouched by complete-marker
removal. -/
theorem eventSub_no_bracket : ∀ l : List Char, '[' ∉ l → eventSub l = l := by
  intro l
  induction l with
  | nil => intro _; rfl
  | cons c t ih =>
    intro h
    have hc : c ≠ '[' := fun hh => h (hh ▸ List.mem_cons_self _ _)
    have h2 := ih (fun hh => h (List.mem_cons_of_mem _ hh))
    show eventSubGo (c :: t) none = c :: t
    rw [eventSubGo, if_neg hc]
    rw [eventSub] at h2
    rw [h2]

/-- Unterminated-bracket removal: the first opening bracket having no later
closing bracket is removed with everything after it. -/
theorem startSub_unterminated : ∀ (pre : List Char), '[' ∉ pre → ∀ s, ']' ∉ s →
    startSub (pre ++ '[' :: s) = pre := by
  intro pre
  induction pre with
  | nil =>
    intro _ s hs
    show startSub ('[' :: s) = []
    rw [startSub]
    rw [if_pos rfl, if_neg hs]
  | cons c pt ih =>
    intro hpre s hs
    have hc : c ≠ '[' := fun h => hpre (h ▸ List.mem_cons_self _ _)
    show startSub (c :: (pt ++ '[' :: s)) = c :: pt
    rw [startSub, if_neg hc]
    rw [ih (fun h => hpre (List.mem_cons_of_mem _ h)) s hs]

/-- A string without opening brackets is untouched by unterminated-bracket
removal. -/
theorem startSub_no_bracket : ∀ l : List Char, '[' ∉ l → startSub l = l := by
  intro l
  induction l with
  | nil => intro _; rfl
  | cons c t ih =>
    intro h
    have hc : c ≠ '[' := fun hh => h (hh ▸ List.mem_cons_self _ _)
    show startSub (c :: t) = c :: t
    rw [startSub, if_neg hc]
    rw [ih (fun hh => h (List.mem_cons_of_mem _ hh))]

/-- takeWhile passes over a block that satisfies the predicate. -/
theorem takeWhile_all_append (p : Char → Bool) :
    ∀ (w r : List Char), (∀ c ∈ w, p c = true) →
      List.takeWhile p (w ++ r) = w ++ List.takeWhile p r := by
  intro w
  induction w with
  | nil => intro r _; rfl
  | cons c t ih =>
    intro r h
    have hc : p c = true := h c (List.mem_cons_self _ _)
    show List.takeWhile p (c :: (t ++ r)) = c :: (t ++ List.takeWhile p r)
    rw [List.takeWhile_cons, if_pos hc]
    rw [ih r (fun x hx => h x (List.mem_cons_of_mem _ hx))]

/-- dropWhile consumes a block that satisfies the predicate. -/
theorem dropWhile_all_append (p : Char → Bool) :
    ∀ (w r : List Char), (∀ c ∈ w, p c = true) →
      List.dropWhile p (w ++ r) = List.dropWhile p r := by
  intro w
  induction w with
  | nil => intro r _; rfl
  | cons c t ih =>
    intro r h
    have hc : p c = true := h c (List.mem_cons_self _ _)
    show List.dropWhile p (c :: (t ++ r)) = List.dropWhile p r
    rw [List.dropWhile_cons, if_pos hc]
    exact ih r (fun x hx => h x (List.mem_cons_of_mem _ hx))

/-- A whitespace character is not a word character. -/
theorem notWord_of_ws (c : Char) (h : isWS c = true) : isWordChar c = false := by
  rw [isWS] at h
  simp only [Bool.or_eq_true, decide_eq_true_eq] at h
  rcases h with ((((h | h) | h) | h) | h) | h <;> rw [h] <;> decide

/-- The whole-string trailing-fragment rule deletes exactly a single word
followed by optional whitespace and a closing bracket. -/
theorem endSub_fragment (w sp : List Char) (hw : w ≠ [])
    (hwall : ∀ c ∈ w, isWordChar c = true) (hsp : ∀ c ∈ sp, isWS c = true) :
    endSub (w ++ (sp ++ [']'])) = [] := by
  have h1 : List.takeWhile isWordChar (w ++ (sp ++ [']'])) = w := by
    rw [takeWhile_all_append _ w _ hwall]
    have h2 : List.takeWhile isWordChar (sp ++ [']']) = [] := by
      cases sp with
      | nil => rfl
      | cons c ct =>
        show List.takeWhile isWordChar (c :: (ct ++ [']'])) = []
        rw [List.takeWhile_cons, if_neg]
        rw [notWord_of_ws c (hsp c (List.mem_cons_self _ _))]
        exact Bool.false_ne_true
    rw [h2, List.append_nil]
  have h3 : List.dropWhile isWS [']'] = [']'] := by decide
  rw [endSub, if_pos]
  rw [matchEnd]
  simp only [h1]
  rw [List.drop_left, dropWhile_all_append _ sp _ hsp, h3]
  simp [hw]

/-- C6 counterexample.  The claim predicts: markers matched greedily by
outermost brackets, so a bracketed span containing an inner bracket pair is
removed whole; and a trailing fragment of one or more words before a closing
bracket is removed.  The code instead matches each marker up to the first
closing bracket, leaving the tail of a nested span; and its trailing rule
fires only when the whole string is a single word before the bracket, so
"abc Italian]" keeps its trailing fragment (claim predicts "abc") and the
two-word "speaking Italian]" is kept whole (claim predicts removal, hence
event-only). -/
theorem c6_counterexample :
    removeEvents ("[a[b] c]".toList) = "c]".toList ∧
    removeEvents ("abc Italian]".toList) = "abc Italian]".toList ∧
    removeEvents ("speaking Italian]".toList) = "speaking Italian]".toList ∧
    isEventOnlyL ("speaking Italian]".toList) = false := by
  decide

/-- C6 amended: the stripper removes each complete marker spanning from an
opening bracket to the first later closing bracket with at least one
character between (left-to-right, prefix without opening brackets kept);
strings without opening brackets pass the first two stages unchanged; the
first opening bracket with no later closing bracket is removed together with
everything to the end; a trailing fragment is removed only when it is the
entire string and consists of one word, optional whitespace and a closing
bracket; and a string is event-only iff this same stripping yields an empty
result. -/
theorem c6_remove_events (pre mid suf s w sp l t : List Char)
    (hpre : '[' ∉ pre) (hmid : ']' ∉ mid) (hmidne : mid ≠ [])
    (hs : ']' ∉ s)
    (hw : w ≠ []) (hwall : ∀ c ∈ w, isWordChar c = true)
    (hsp : ∀ c ∈ sp, isWS c = true)
    (hl : '[' ∉ l) :
    eventSub (pre ++ '[' :: (mid ++ ']' :: suf)) = pre ++ eventSub suf ∧
    eventSub l = l ∧ startSub l = l ∧
    startSub (pre ++ '[' :: s) = pre ∧
    endSub (w ++ (sp ++ [']'])) = [] ∧
    (isEventOnlyL t = true ↔ removeEvents t = []) := by
  refine ⟨eventSub_marker pre hpre mid suf hmid hmidne,
    eventSub_no_bracket l hl, startSub_no_bracket l hl,
    startSub_unterminated pre hpre s hs,
    endSub_fragment w sp hw hwall hsp, ?_⟩
  rw [isEventOnlyL]
  exact decide_eq_true_iff

/-- Witness for C6: the stage laws evaluated at concrete strings. -/
theorem c6_remove_events_witness :
    eventSub ("ab ".toList ++ '[' :: ("Laughter".toList ++ ']' :: " cd".toList)) =
      "ab ".toList ++ eventSub " cd".toList ∧
    eventSub "hello there".toList = "hello there".toList ∧
    startSub "hello there".toList = "hello there".toList ∧
    startSub ("ab ".toList ++ '[' :: "yz".toList) = "ab ".toList ∧
    endSub ("Italian".toList ++ (" ".toList ++ [']'])) = [] ∧
    (isEventOnlyL "[Applause]".toList = true ↔ removeEvents "[Applause]".toList = []) :=
  c6_remove_events "ab ".toList "Laughter".toList " cd".toList "yz".toList
    "Italian".toList " ".toList "hello there".toList "[Applause]".toList
    (by decide) (by decide) (by decide) (by decide) (by decide) (by decide)
    (by decide) (by decide)

/-- Length is preserved by indexed mapping. -/
theorem idxMap_length {α β : Type} : ∀ (f : ℕ → α → β) (l : List α),
    (idxMap f l).length = l.length
  | _, [] => rfl
  | f, a :: t => by
    rw [idxMap, List.length_cons, List.length_cons, idxMap_length]

/-- Indexed mapping only depends on the pointwise values. -/
theorem idxMap_congr {α β : Type} : ∀ (f g : ℕ → α → β) (l : List α),
    (∀ i a, f i a = g i a) → idxMap f l = idxMap g l
  | _, _, [], _ => rfl
  | f, g, a :: t, h => by
    rw [idxMap, idxMap, h 0 a, idxMap_congr _ _ t (fun i a => h (i + 1) a)]

/-- getLast? of a cons defaults to the head when the tail is empty. -/
theorem getLast?_cons_eq {α : Type} : ∀ (a : α) (l : List α),
    (a :: l).getLast? = some (l.getLast?.getD a)
  | _, [] => rfl
  | a, b :: t => by rw [List.getLast?_cons_cons, getLast?_cons_eq b]; rfl

/-- Folding the speaker state through one retained event: the most recent
tag over the extended list equals the most recent tag over the tail with the
default updated by the head's tag. -/
theorem speakerLabel_cons (ev : SSAEvent) (rr : List SSAEvent) (spk : Option (List Char)) :
    (((ev :: rr).filter (fun x => decide (x.name ≠ []))).getLast?).elim spk
        (fun x => some (normalizeSpeakerName x.name)) =
      ((rr.filter (fun x => decide (x.name ≠ []))).getLast?).elim
        (if ev.name ≠ [] then some (normalizeSpeakerName ev.name) else spk)
        (fun x => some (normalizeSpeakerName x.name)) := by
  by_cases hne : ev.name = []
  · rw [List.filter_cons_of_neg (by simp [hne])]
    rw [if_neg (by simp [hne])]
  · rw [List.filter_cons_of_pos (by simp [hne])]
    rw [getLast?_cons_eq]
    rw [if_pos hne]
    cases h : (rr.filter (fun x => decide (x.name ≠ []))).getLast? with
    | none => rfl
    | some x => rfl

/-- The timeline loop emits, for each retained event in order, its segment
in seconds labelled by the most recent normalized speaker tag among the
retained events so far (the fold state `spk` is the default before any
tag). -/
theorem timelineGo_spec (skip : Bool) : ∀ (evs : List SSAEvent) (spk : Option (List Char)),
    timelineGo skip spk evs =
      idxMap (fun i e =>
        ((e.start : ℚ) / 1000, (e.stop : ℚ) / 1000,
          ((((retainedEvents evs skip).take (i + 1)).filter
              (fun x => decide (x.name ≠ []))).getLast?).elim spk
            (fun x => some (normalizeSpeakerName x.name))))
        (retainedEvents evs skip) := by
  intro evs
  induction evs with
  | nil => intro spk; rfl
  | cons ev rest ih =>
    intro spk
    by_cases hskip : skip && isEventOnlyL ev.text
    · rw [timelineGo, if_pos hskip]
      rw [retainedEvents, List.filter_cons_of_neg (by simp [hskip])]
      rw [ih spk]
      rfl
    · have hb : (skip && isEventOnlyL ev.text) = false := by
        revert hskip
        cases skip && isEventOnlyL ev.text <;> simp
      rw [timelineGo, if_neg hskip]
      show ((ev.start : ℚ) / 1000, (ev.stop : ℚ) / 1000,
          if ev.name ≠ [] then some (normalizeSpeakerName ev.name) else spk) ::
          timelineGo skip
            (if ev.name ≠ [] then some (normalizeSpeakerName ev.name) else spk) rest = _
      rw [retainedEvents, List.filter_cons_of_pos (by rw [hb]; rfl)]
      rw [idxMap]
      have hhead : ((ev.start : ℚ) / 1000, (ev.stop : ℚ) / 1000,
          if ev.name ≠ [] then some (normalizeSpeakerName ev.name) else spk) =
          ((ev.start : ℚ) / 1000, (ev.stop : ℚ) / 1000,
            (((List.take (0 + 1) (ev :: List.filter
                (fun e => !(skip && isEventOnlyL e.text)) rest)).filter
              (fun x => decide (x.name ≠ []))).getLast?).elim spk
            (fun x => some (normalizeSpeakerName x.name))) := by
        rw [List.take_succ_cons, List.take_zero]
        by_cases hne : ev.name = []
        · rw [List.filter_cons_of_neg (by simp [hne])]
          rw [if_neg (by simp [hne])]
          rfl
        · rw [List.filter_cons_of_pos (by simp [hne])]
          rw [if_pos hne]
          rfl
      rw [← hhead]
      congr 1
      rw [ih (if ev.name ≠ [] then some (normalizeSpeakerName ev.name) else spk)]
      rw [retainedEvents]
      refine idxMap_congr _ _ _ ?_
      intro i e
      rw [List.take_succ_cons]
      rw [speakerLabel_cons]

/-- C5: the speaker timeline equals, interval for interval and in order, the
retained events mapped to their millisecond-to-second segments, each
labelled with the spec-side current speaker (the normalized most recent tag,
null before any tag); in particular the interval count equals the retained
event count, with no condition on zero-length or overlapping timings.  The
speaker-tag normalization inside `normalizeSpeakerName` is the fullwidth
fold followed by stripping trailing colons, leading greater-than signs and
whitespace. -/
theorem c5_timeline_builder (events : List SSAEvent) (skip : Bool) :
    captionTimeline events skip =
      idxMap (fun i e =>
        ((e.start : ℚ) / 1000, (e.stop : ℚ) / 1000,
          specCurrentSpeaker ((retainedEvents events skip).take (i + 1))))
        (retainedEvents events skip) ∧
    (captionTimeline events skip).length = (retainedEvents events skip).length := by
  have hmain : captionTimeline events skip =
      idxMap (fun i e =>
        ((e.start : ℚ) / 1000, (e.stop : ℚ) / 1000,
          specCurrentSpeaker ((retainedEvents events skip).take (i + 1))))
        (retainedEvents events skip) := by
    rw [captionTimeline, timelineGo_spec]
    refine idxMap_congr _ _ _ ?_
    intro i e
    rw [specCurrentSpeaker]
    cases h : (((retainedEvents events skip).take (i + 1)).filter
        (fun x => decide (x.name ≠ []))).getLast? with
    | none => rfl
    | some x => rfl
  exact ⟨hmain, by rw [hmain, idxMap_length]⟩

/-- Entity decoding leaves strings without an ampersand unchanged. -/
theorem decodeHtml_no_amp : ∀ l : List Char, '&' ∉ l → decodeHtml l = l := by
  have key : ∀ l : List Char, '&' ∉ l → decodeHtmlGo l none = l := by
    intro l
    induction l with
    | nil => intro _; rfl
    | cons c t ih =>
      intro h
      have hc : c ≠ '&' := fun hh => h (hh ▸ List.mem_cons_self _ _)
      rw [decodeHtmlGo, if_neg hc, ih (fun hh => h (List.mem_cons_of_mem _ hh))]
  intro l h
  exact key l h

/-- ASS-newline replacement leaves strings without a backslash unchanged. -/
theorem replaceAssN_no_bs : ∀ l : List Char, '\\' ∉ l → replaceAssN l = l := by
  have key : ∀ l : List Char, '\\' ∉ l → replaceAssNGo l false = l := by
    intro l
    induction l with
    | nil => intro _; rfl
    | cons c t ih =>
      intro h
      have hc : c ≠ '\\' := fun hh => h (hh ▸ List.mem_cons_self _ _)
      rw [replaceAssNGo, if_neg hc, ih (fun hh => h (List.mem_cons_of_mem _ hh))]
  intro l h
  exact key l h

/-- SRT-newline replacement leaves strings without a backslash unchanged. -/
theorem replaceSrtN_no_bs : ∀ l : List Char, '\\' ∉ l → replaceSrtN l = l := by
  have key : ∀ l : List Char, '\\' ∉ l → replaceSrtNGo l false = l := by
    intro l
    induction l with
    | nil => intro _; rfl
    | cons c t ih =>
      intro h
      have hc : c ≠ '\\' := fun hh => h (hh ▸ List.mem_cons_self _ _)
      rw [replaceSrtNGo, if_neg hc, ih (fun hh => h (List.mem_cons_of_mem _ hh))]
  intro l h
  exact key l h

/-- Ellipsis replacement leaves strings without a dot unchanged. -/
theorem replaceEllipsis_no_dot : ∀ l : List Char, '.' ∉ l → replaceEllipsis l = l := by
  have key : ∀ l : List Char, '.' ∉ l → replaceEllipsisGo l 0 = l := by
    intro l
    induction l with
    | nil => intro _; rfl
    | cons c t ih =>
      intro h
      have hc : c ≠ '.' := fun hh => h (hh ▸ List.mem_cons_self _ _)
      rw [replaceEllipsisGo, if_neg hc, ih (fun hh => h (List.mem_cons_of_mem _ hh))]
      rfl
  intro l h
  exact key l h

/-- The unicode fold is the identity below the smart-quote range. -/
theorem normalizeUnicodeChar_ascii (c : Char) (h : c.toNat < 0x2018) :
    normalizeUnicodeChar c = c := by
  rw [normalizeUnicodeChar]
  rw [if_neg (by simp only [Bool.or_eq_true, decide_eq_true_eq]; omega)]
  rw [if_neg (by simp only [Bool.or_eq_true, decide_eq_true_eq]; omega)]
  rw [if_neg (by simp only [Bool.and_eq_true, decide_eq_true_eq]; omega)]
  rw [if_neg (by omega)]

/-- Mapping a function that fixes every member is the identity. -/
theorem map_id_of_fixed {α : Type} (f : α → α) : ∀ l : List α,
    (∀ c ∈ l, f c = c) → l.map f = l := by
  intro l
  induction l with
  | nil => intro _; rfl
  | cons c t ih =>
    intro h
    rw [List.map_cons, h c (List.mem_cons_self _ _),
      ih (fun x hx => h x (List.mem_cons_of_mem _ hx))]

/-- The unicode fold is the identity on strings below the smart-quote
range. -/
theorem normalizeUnicode_ascii (l : List Char) (h : ∀ c ∈ l, c.toNat < 0x2018) :
    normalizeUnicode l = l :=
  map_id_of_fixed _ l (fun c hc => normalizeUnicodeChar_ascii c (h c hc))

/-- A whitespace character is none of the special characters of the text
pipeline and lies below the smart-quote range. -/
theorem ws_char_facts (c : Char) (h : isWS c = true) :
    c ≠ '&' ∧ c ≠ '\\' ∧ c ≠ '.' ∧ c ≠ '[' ∧ c ≠ ']' ∧ c.toNat < 0x2018 := by
  rw [isWS] at h
  simp only [Bool.or_eq_true, decide_eq_true_eq] at h
  rcases h with ((((h | h) | h) | h) | h) | h <;> rw [h] <;> refine ⟨?_, ?_, ?_, ?_, ?_, ?_⟩ <;> decide

/-- An all-whitespace string is fully stripped. -/
theorem stripL_ws (s : List Char) (h : ∀ c ∈ s, isWS c = true) : stripL s = [] := by
  have hd : List.dropWhile isWS s = [] := by
    have := dropWhile_all_append isWS s [] h
    rw [List.append_nil] at this
    rw [this]
    rfl
  rw [stripL, hd]
  rfl

/-- The trailing-fragment rule ignores all-whitespace strings. -/
theorem endSub_ws (s : List Char) (h : ∀ c ∈ s, isWS c = true) : endSub s = s := by
  have hm : matchEnd s = false := by
    cases s with
    | nil => rfl
    | cons c t =>
      rw [matchEnd]
      rw [List.takeWhile_cons, if_neg (by
        rw [notWord_of_ws c (h c (List.mem_cons_self _ _))]
        exact Bool.false_ne_true)]
      rfl
  rw [endSub, hm]
  simp

/-- An all-whitespace string cleans to nothing: it is event-only. -/
theorem removeEvents_ws (s : List Char) (h : ∀ c ∈ s, isWS c = true) :
    removeEvents s = [] := by
  have hbr : '[' ∉ s := fun hmem => by
    have := (ws_char_facts '[' (h _ hmem)).2.2.2.1
    exact this rfl
  rw [removeEvents, eventSub_no_bracket s hbr, startSub_no_bracket s hbr,
    endSub_ws s h, stripL_ws s h]

/-- An all-whitespace string passes the whole per-event preprocessing and
strips to nothing. -/
theorem processedText_ws (s : List Char) (h : ∀ c ∈ s, isWS c = true) :
    processedText s = [] := by
  have hamp : '&' ∉ s := fun hmem => (ws_char_facts _ (h _ hmem)).1 rfl
  have hbs : '\\' ∉ s := fun hmem => (ws_char_facts _ (h _ hmem)).2.1 rfl
  have hdot : '.' ∉ s := fun hmem => (ws_char_facts _ (h _ hmem)).2.2.1 rfl
  have hlt : ∀ c ∈ s, c.toNat < 0x2018 := fun c hc => (ws_char_facts _ (h _ hc)).2.2.2.2.2
  rw [processedText, decodeHtml_no_amp s hamp, normalizeUnicode_ascii s hlt,
    replaceAssN_no_bs s hbs, replaceSrtN_no_bs s hbs, replaceEllipsis_no_dot s hdot,
    stripL_ws s h]

/-- The text-stream loop is stateless: it distributes over concatenation of
event lists. -/
theorem captionTexts_append (norm : List Char → List Char) (skip : Bool) :
    ∀ a b : List SSAEvent,
      captionTexts norm skip (a ++ b) = captionTexts norm skip a ++ captionTexts norm skip b := by
  intro a
  induction a with
  | nil => intro b; rfl
  | cons e t ih =>
    intro b
    show captionTexts norm skip (e :: (t ++ b)) = _
    rw [captionTexts, captionTexts]
    by_cases h1 : (skip && isEventOnlyL (processedText e.text)) = true
    · rw [if_pos h1, if_pos h1, ih]
    · rw [if_neg h1, if_neg h1]
      by_cases h2 : (if skip then removeEvents (processedText e.text) else processedText e.text) = []
      · rw [if_pos h2, if_pos h2, ih]
      · rw [if_neg h2, if_neg h2, ih]
        rfl

/-- A space inserted between two character blocks separates their tokens,
whatever partial token is pending. -/
theorem tokensGo_split : ∀ (xs zs cur : List Char),
    tokensGo (xs ++ ' ' :: zs) cur = tokensGo xs cur ++ tokensGo zs [] := by
  intro xs
  induction xs with
  | nil =>
    intro zs cur
    show tokensGo (' ' :: zs) cur = tokensGo [] cur ++ tokensGo zs []
    rw [tokensGo, tokensGo]
    rw [if_pos (show isWS ' ' = true from rfl)]
    by_cases hc : cur = []
    · rw [if_pos hc, if_pos hc]
      rfl
    · rw [if_neg hc, if_neg hc]
      rfl
  | cons c t ih =>
    intro zs cur
    show tokensGo (c :: (t ++ ' ' :: zs)) cur = tokensGo (c :: t) cur ++ tokensGo zs []
    rw [tokensGo, tokensGo]
    by_cases hw : isWS c = true
    · rw [if_pos hw, if_pos hw]
      by_cases hc : cur = []
      · rw [if_pos hc, if_pos hc, ih]
      · rw [if_neg hc, if_neg hc, ih]
        rfl
    · rw [if_neg hw, if_neg hw, ih]

/-- Tokenizing the space-joined text list gives the per-element tokens,
concatenated; empty elements contribute nothing. -/
theorem tokens_joinSpace : ∀ l : List (List Char),
    tokens (joinSpace l) = (l.map tokens).flatten := by
  intro l
  induction l with
  | nil => rfl
  | cons x t ih =>
    cases t with
    | nil =>
      show tokens (joinSpace [x]) = ([x].map tokens).flatten
      rw [joinSpace]
      simp
    | cons y r =>
      show tokens (joinSpace (x :: y :: r)) = ((x :: y :: r).map tokens).flatten
      rw [joinSpace, tokens, tokensGo_split]
      rw [List.map_cons, List.flatten_cons]
      rw [show tokensGo x [] = tokens x from rfl]
      rw [show tokensGo (joinSpace (y :: r)) [] = tokens (joinSpace (y :: r)) from rfl]
      rw [ih]

/-- Dropping an event-only entry from anywhere in the event list leaves the
skip-enabled timeline unchanged: the entry is skipped before the speaker
state is read or written. -/
theorem timelineGo_drop_event (ev : SSAEvent) (hev : isEventOnlyL ev.text = true) :
    ∀ (pre suf : List SSAEvent) (spk : Option (List Char)),
      timelineGo true spk (pre ++ ev :: suf) = timelineGo true spk (pre ++ suf) := by
  intro pre
  induction pre with
  | nil =>
    intro suf spk
    show timelineGo true spk (ev :: suf) = timelineGo true spk suf
    rw [timelineGo, if_pos (by rw [hev]; rfl)]
  | cons p pt ih =>
    intro suf spk
    show timelineGo true spk (p :: (pt ++ ev :: suf)) =
      timelineGo true spk (p :: (pt ++ suf))
    rw [timelineGo, timelineGo]
    by_cases hp : (true && isEventOnlyL p.text) = true
    · rw [if_pos hp, if_pos hp, ih]
    · rw [if_neg hp, if_neg hp, ih]

/-- Without skipping, every event yields exactly one interval. -/
theorem timelineGo_length_noskip : ∀ (evs : List SSAEvent) (spk : Option (List Char)),
    (timelineGo false spk evs).length = evs.length := by
  intro evs
  induction evs with
  | nil => intro spk; rfl
  | cons e t ih =>
    intro spk
    rw [timelineGo, if_neg (by simp)]
    rw [List.length_cons, ih]
    rfl

/-- C7: an event whose text is exactly "[Laughter]" is event-only, so with
skip_events the event leaves both the speaker timeline and the text stream
untouched; without skip_events it still contributes its own timeline
interval (interval count equals full event count) while adding no token to
the WER text stream, provided the external English normalizer maps the
marker text to the empty string (which the spec asserts). -/
theorem c7_event_only_laughter (pre suf : List SSAEvent) (ev : SSAEvent)
    (norm : List Char → List Char)
    (htext : ev.text = "[Laughter]".toList)
    (hnorm : norm ("[Laughter]".toList) = []) :
    captionTimeline (pre ++ ev :: suf) true = captionTimeline (pre ++ suf) true ∧
    captionTexts norm true (pre ++ ev :: suf) = captionTexts norm true (pre ++ suf) ∧
    (captionTimeline (pre ++ ev :: suf) false).length = (pre ++ ev :: suf).length ∧
    tokens (captionToText norm false (pre ++ ev :: suf)) =
      tokens (captionToText norm false (pre ++ suf)) := by
  have hproc : processedText ("[Laughter]".toList) = "[Laughter]".toList := by decide
  have hexp : expandContractions ("[Laughter]".toList) = "[Laughter]".toList := by decide
  have hev2 : captionTexts norm true [ev] = [] := by
    rw [captionTexts, if_pos (by rw [htext, hproc]; decide)]
    rfl
  have hev3 : captionTexts norm false [ev] = [replaceChatgpt (norm ("[Laughter]".toList))] := by
    rw [captionTexts]
    rw [if_neg (by simp)]
    rw [show (if (false : Bool) then removeEvents (processedText ev.text)
        else processedText ev.text) = processedText ev.text by simp]
    rw [htext, hproc]
    rw [if_neg (by decide)]
    rw [hexp]
    rfl
  refine ⟨?_, ?_, ?_, ?_⟩
  · rw [captionTimeline, captionTimeline]
    exact timelineGo_drop_event ev (by rw [htext]; decide) pre suf none
  · rw [show pre ++ ev :: suf = pre ++ ([ev] ++ suf) from rfl]
    rw [captionTexts_append, captionTexts_append, hev2, captionTexts_append]
    rfl
  · rw [captionTimeline]
    exact timelineGo_length_noskip _ none
  · rw [captionToText, captionToText, tokens_joinSpace, tokens_joinSpace]
    rw [show pre ++ ev :: suf = pre ++ ([ev] ++ suf) from rfl]
    rw [captionTexts_append, captionTexts_append, hev3, hnorm, captionTexts_append]
    simp
    rfl

/-- Witness for C7: a tagged speech event followed by a "[Laughter]" event,
with a normalizer sending the marker to the empty string. -/
theorem c7_event_only_laughter_witness :
    captionTimeline [⟨0, 500, "Al".toList, "hi".toList⟩,
        ⟨500, 1000, [], "[Laughter]".toList⟩] true =
      captionTimeline [⟨0, 500, "Al".toList, "hi".toList⟩] true ∧
    captionTexts (fun _ => []) true [⟨0, 500, "Al".toList, "hi".toList⟩,
        ⟨500, 1000, [], "[Laughter]".toList⟩] =
      captionTexts (fun _ => []) true [⟨0, 500, "Al".toList, "hi".toList⟩] ∧
    (captionTimeline [⟨0, 500, "Al".toList, "hi".toList⟩,
        ⟨500, 1000, [], "[Laughter]".toList⟩] false).length =
      ([⟨0, 500, "Al".toList, "hi".toList⟩,
        (⟨500, 1000, [], "[Laughter]".toList⟩ : SSAEvent)]).length ∧
    tokens (captionToText (fun _ => []) false [⟨0, 500, "Al".toList, "hi".toList⟩,
        ⟨500, 1000, [], "[Laughter]".toList⟩]) =
      tokens (captionToText (fun _ => []) false [⟨0, 500, "Al".toList, "hi".toList⟩]) :=
  c7_event_only_laughter [⟨0, 500, "Al".toList, "hi".toList⟩] []
    ⟨500, 1000, [], "[Laughter]".toList⟩ (fun _ => []) rfl rfl

/-- C10: an event whose text is empty or all-whitespace is event-only even
though it contains no bracketed marker, so with skip_events it is dropped
from both the speaker timeline and the text stream. -/
theorem c10_blank_event_dropped (pre suf : List SSAEvent) (ev : SSAEvent)
    (norm : List Char → List Char) (hws : ∀ c ∈ ev.text, isWS c = true) :
    isEventOnlyL ev.text = true ∧
    captionTimeline (pre ++ ev :: suf) true = captionTimeline (pre ++ suf) true ∧
    captionTexts norm true (pre ++ ev :: suf) = captionTexts norm true (pre ++ suf) := by
  have hev : isEventOnlyL ev.text = true := by
    rw [isEventOnlyL, removeEvents_ws ev.text hws]
    rfl
  have hproc : processedText ev.text = [] := processedText_ws ev.text hws
  refine ⟨hev, ?_, ?_⟩
  · rw [captionTimeline, captionTimeline]
    exact timelineGo_drop_event ev hev pre suf none
  · have hev2 : captionTexts norm true [ev] = [] := by
      rw [captionTexts, if_pos (by rw [hproc]; decide)]
      rfl
    rw [show pre ++ ev :: suf = pre ++ ([ev] ++ suf) from rfl]
    rw [captionTexts_append, captionTexts_append, hev2, captionTexts_append]
    rfl

/-- Witness for C10: an event holding two spaces between two speech
events. -/
theorem c10_blank_event_dropped_witness :
    isEventOnlyL ("  ".toList) = true ∧
    captionTimeline [⟨0, 500, "Al".toList, "hi".toList⟩, ⟨500, 600, [], "  ".toList⟩,
        ⟨600, 900, [], "yes".toList⟩] true =
      captionTimeline [⟨0, 500, "Al".toList, "hi".toList⟩,
        ⟨600, 900, [], "yes".toList⟩] true ∧
    captionTexts (fun l => l) true [⟨0, 500, "Al".toList, "hi".toList⟩,
        ⟨500, 600, [], "  ".toList⟩, ⟨600, 900, [], "yes".toList⟩] =
      captionTexts (fun l => l) true [⟨0, 500, "Al".toList, "hi".toList⟩,
        ⟨600, 900, [], "yes".toList⟩] :=
  c10_blank_event_dropped [⟨0, 500, "Al".toList, "hi".toList⟩]
    [⟨600, 900, [], "yes".toList⟩] ⟨500, 600, [], "  ".toList⟩ (fun l => l)
    (by decide)

/-- The won't rule leaves apostrophe-free text unchanged. -/
theorem subWont_id : ∀ l : List Char, apostChar ∉ l → ∀ pw, subWont pw l = l := by
  intro l
  induction l with
  | nil => intro _ pw; rfl
  | cons c1 t ih =>
    intro h pw
    have ht := ih (fun hh => h (List.mem_cons_of_mem _ hh))
    rw [subWont.eq_def]
    split
    · rename_i c1' c2 c3 c4 c5 rest heq
      injection heq with h1 h2
      subst h1
      subst h2
      have hc4 : c4 ≠ apostChar := by
        intro he
        apply h
        rw [← he]
        simp
      rw [if_neg (by simp [hc4])]
      rw [ht]
    · rename_i c1' rest heq
      injection heq with h1 h2
      subst h1
      subst h2
      rw [ht]
    · rename_i heq
      exact (List.cons_ne_nil _ _ heq).elim

/-- The can't rule leaves apostrophe-free text unchanged. -/
theorem subCant_id : ∀ l : List Char, apostChar ∉ l → ∀ pw, subCant pw l = l := by
  intro l
  induction l with
  | nil => intro _ pw; rfl
  | cons c1 t ih =>
    intro h pw
    have ht := ih (fun hh => h (List.mem_cons_of_mem _ hh))
    rw [subCant.eq_def]
    split
    · rename_i c1' c2 c3 c4 c5 rest heq
      injection heq with h1 h2
      subst h1
      subst h2
      have hc4 : c4 ≠ apostChar := by
        intro he
        apply h
        rw [← he]
        simp
      rw [if_neg (by simp [hc4])]
      rw [ht]
    · rename_i c1' rest heq
      injection heq with h1 h2
      subst h1
      subst h2
      rw [ht]
    · rename_i heq
      exact (List.cons_ne_nil _ _ heq).elim

/-- The shan't rule leaves apostrophe-free text unchanged. -/
theorem subShant_id : ∀ l : List Char, apostChar ∉ l → ∀ pw, subShant pw l = l := by
  intro l
  induction l with
  | nil => intro _ pw; rfl
  | cons c1 t ih =>
    intro h pw
    have ht := ih (fun hh => h (List.mem_cons_of_mem _ hh))
    rw [subShant.eq_def]
    split
    · rename_i c1' c2 c3 c4 c5 c6 rest heq
      injection heq with h1 h2
      subst h1
      subst h2
      have hc5 : c5 ≠ apostChar := by
        intro he
        apply h
        rw [← he]
        simp
      rw [if_neg (by simp [hc5])]
      rw [ht]
    · rename_i c1' rest heq
      injection heq with h1 h2
      subst h1
      subst h2
      rw [ht]
    · rename_i heq
      exact (List.cons_ne_nil _ _ heq).elim

/-- The n't rule leaves apostrophe-free text unchanged. -/
theorem subNt_id : ∀ l : List Char, apostChar ∉ l → ∀ pw, subNt pw l = l := by
  intro l
  induction l with
  | nil => intro _ pw; rfl
  | cons c1 t ih =>
    intro h pw
    have ht := ih (fun hh => h (List.mem_cons_of_mem _ hh))
    rw [subNt.eq_def]
    split
    · rename_i c1' c2 c3 rest heq
      injection heq with h1 h2
      subst h1
      subst h2
      have hc2 : c2 ≠ apostChar := by
        intro he
        apply h
        rw [← he]
        simp
      rw [if_neg (by simp [hc2])]
      rw [ht]
    · rename_i c1' rest heq
      injection heq with h1 h2
      subst h1
      subst h2
      rw [ht]
    · rename_i heq
      exact (List.cons_ne_nil _ _ heq).elim

/-- The let's rule leaves apostrophe-free text unchanged. -/
theorem subLets_id : ∀ l : List Char, apostChar ∉ l → ∀ pw, subLets pw l = l := by
  intro l
  induction l with
  | nil => intro _ pw; rfl
  | cons c1 t ih =>
    intro h pw
    have ht := ih (fun hh => h (List.mem_cons_of_mem _ hh))
    rw [subLets.eq_def]
    split
    · rename_i c1' c2 c3 c4 c5 rest heq
      injection heq with h1 h2
      subst h1
      subst h2
      have hc4 : c4 ≠ apostChar := by
        intro he
        apply h
        rw [← he]
        simp
      rw [if_neg (by simp [hc4])]
      rw [ht]
    · rename_i c1' rest heq
      injection heq with h1 h2
      subst h1
      subst h2
      rw [ht]
    · rename_i heq
      exact (List.cons_ne_nil _ _ heq).elim

/-- The I'm rule leaves apostrophe-free text unchanged. -/
theorem subIm_id : ∀ l : List Char, apostChar ∉ l → ∀ pw, subIm pw l = l := by
  intro l
  induction l with
  | nil => intro _ pw; rfl
  | cons c1 t ih =>
    intro h pw
    have ht := ih (fun hh => h (List.mem_cons_of_mem _ hh))
    rw [subIm.eq_def]
    split
    · rename_i c1' c2 c3 rest heq
      injection heq with h1 h2
      subst h1
      subst h2
      have hc2 : c2 ≠ apostChar := by
        intro he
        apply h
        rw [← he]
        simp
      rw [if_neg (by simp [hc2])]
      rw [ht]
    · rename_i c1' rest heq
      injection heq with h1 h2
      subst h1
      subst h2
      rw [ht]
    · rename_i heq
      exact (List.cons_ne_nil _ _ heq).elim

/-- The one-letter captured-group rule flushes its buffer unchanged over
apostrophe-free text. -/
theorem grpSubGo1_id (s1 : Char) (repl : List Char) :
    ∀ l : List Char, apostChar ∉ l → ∀ buf, grpSubGo1 s1 repl buf l = buf.reverse ++ l := by
  intro l
  induction l with
  | nil =>
    intro _ buf
    rw [List.append_nil]
    rfl
  | cons c t ih =>
    intro h buf
    have ht := ih (fun hh => h (List.mem_cons_of_mem _ hh))
    have hc : c ≠ apostChar := fun he => h (he ▸ List.mem_cons_self _ _)
    rw [grpSubGo1.eq_def]
    by_cases hw : isWordChar c = true
    · simp only [hw, if_true]
      rw [ht (c :: buf)]
      simp
    · rw [Bool.not_eq_true] at hw
      simp only [hw, Bool.false_eq_true, if_false]
      rw [if_neg (by simp [hc])]
      rw [ht []]
      simp

/-- The two-letter captured-group rule flushes its buffer unchanged over
apostrophe-free text. -/
theorem grpSubGo2_id (s1 s2 : Char) (repl : List Char) :
    ∀ l : List Char, apostChar ∉ l → ∀ buf, grpSubGo2 s1 s2 repl buf l = buf.reverse ++ l := by
  intro l
  induction l with
  | nil =>
    intro _ buf
    rw [List.append_nil]
    rfl
  | cons c t ih =>
    intro h buf
    have ht := ih (fun hh => h (List.mem_cons_of_mem _ hh))
    have hc : c ≠ apostChar := fun he => h (he ▸ List.mem_cons_self _ _)
    rw [grpSubGo2.eq_def]
    by_cases hw : isWordChar c = true
    · simp only [hw, if_true]
      rw [ht (c :: buf)]
      simp
    · rw [Bool.not_eq_true] at hw
      simp only [hw, Bool.false_eq_true, if_false]
      rw [if_neg (by simp [hc])]
      rw [ht []]
      simp

/-- Contraction expansion leaves apostrophe-free text unchanged: every rule
pattern contains an apostrophe. -/
theorem expandContractions_id (l : List Char) (h : apostChar ∉ l) :
    expandContractions l = l := by
  have g1 : grpSub2 'r' 'e' ('a' :: 'r' :: 'e' :: []) l = l := by
    rw [grpSub2, grpSubGo2_id 'r' 'e' _ l h []]
    rfl
  have g2 : grpSub2 'v' 'e' ('h' :: 'a' :: 'v' :: 'e' :: []) l = l := by
    rw [grpSub2, grpSubGo2_id 'v' 'e' _ l h []]
    rfl
  have g3 : grpSub2 'l' 'l' ('w' :: 'i' :: 'l' :: 'l' :: []) l = l := by
    rw [grpSub2, grpSubGo2_id 'l' 'l' _ l h []]
    rfl
  have g4 : grpSub1 'd' ('w' :: 'o' :: 'u' :: 'l' :: 'd' :: []) l = l := by
    rw [grpSub1, grpSubGo1_id 'd' _ l h []]
    rfl
  have g5 : grpSub1 's' ('i' :: 's' :: []) l = l := by
    rw [grpSub1, grpSubGo1_id 's' _ l h []]
    rfl
  rw [expandContractions]
  rw [subWont_id l h false, subCant_id l h false, subShant_id l h false,
    subNt_id l h false, subLets_id l h false, g1, g2, g3, g4,
    subIm_id l h false, g5]

/-- A normalized-stream character is none of the pipeline's special
characters and lies below the smart-quote range. -/
theorem normChar_facts (c : Char) (h : normChar c = true) :
    c ≠ '&' ∧ c ≠ '\\' ∧ c ≠ '.' ∧ c ≠ '[' ∧ c ≠ ']' ∧ c ≠ apostChar ∧
      c.toNat < 0x2018 := by
  rw [normChar] at h
  simp only [Bool.or_eq_true, Bool.and_eq_true, decide_eq_true_eq] at h
  have htn : c.toNat = 32 ∨ (97 ≤ c.toNat ∧ c.toNat ≤ 122) ∨
      (48 ≤ c.toNat ∧ c.toNat ≤ 57) := by
    rcases h with (h | h) | h
    · right; left; exact h
    · right; right; exact h
    · left; rw [h]; rfl
  refine ⟨fun he => absurd (he ▸ htn) (by decide),
    fun he => absurd (he ▸ htn) (by decide),
    fun he => absurd (he ▸ htn) (by decide),
    fun he => absurd (he ▸ htn) (by decide),
    fun he => absurd (he ▸ htn) (by decide),
    fun he => absurd (he ▸ htn) (by decide), by omega⟩

/-- The only whitespace character in the normalized class is the space. -/
theorem normChar_ws_space (c : Char) (hc : normChar c = true) (hw : isWS c = true) :
    c = ' ' := by
  rw [isWS] at hw
  simp only [Bool.or_eq_true, decide_eq_true_eq] at hw
  rcases hw with ((((hw | hw) | hw) | hw) | hw) | hw
  · exact hw
  all_goals rw [hw] at hc
  all_goals exact absurd hc (by decide)

/-- A normalized token stream with no edge space is untouched by
stripping. -/
theorem stripL_fixed (l : List Char) (h : ∀ c ∈ l, normChar c = true)
    (hh : ∀ c, l.head? = some c → c ≠ ' ')
    (hl : ∀ c, l.getLast? = some c → c ≠ ' ') :
    stripL l = l := by
  have hdrop : l.dropWhile isWS = l := by
    cases hcase : l with
    | nil => rfl
    | cons c t =>
      rw [List.dropWhile_cons, if_neg]
      intro hwc
      have hcs : c = ' ' :=
        normChar_ws_space c (h c (by rw [hcase]; exact List.mem_cons_self _ _)) hwc
      exact hh c (by rw [hcase]; rfl) hcs
  have hdrop2 : l.reverse.dropWhile isWS = l.reverse := by
    cases hcase : l.reverse with
    | nil => rfl
    | cons c t =>
      rw [List.dropWhile_cons, if_neg]
      intro hwc
      have hcl : c ∈ l := by
        rw [← List.mem_reverse, hcase]
        exact List.mem_cons_self _ _
      have hcs := normChar_ws_space c (h c hcl) hwc
      refine hl c ?_ hcs
      rw [← List.head?_reverse, hcase]
      rfl
  rw [stripL, hdrop, hdrop2, List.reverse_reverse]

/-- A normalized token stream is untouched by the trailing-fragment rule:
it contains no closing bracket. -/
theorem endSub_fixed (l : List Char) (h : ∀ c ∈ l, normChar c = true) :
    endSub l = l := by
  rw [endSub, if_neg]
  intro hm
  rw [matchEnd] at hm
  simp only [Bool.and_eq_true, decide_eq_true_eq] at hm
  have hmem : (']' : Char) ∈ l := by
    have h1 : (']' : Char) ∈
        (l.drop (l.takeWhile isWordChar).length).dropWhile isWS := by
      rw [hm.2]
      exact List.mem_cons_self _ _
    have h2 := (List.dropWhile_sublist _).subset h1
    exact List.drop_subset _ l h2
  exact (normChar_facts _ (h _ hmem)).2.2.2.2.1 rfl

/-- The in-repository normalization pipeline fixes every already-normalized
ASCII-lowercase token stream (lowercase alphanumerics separated by interior
spaces). -/
theorem textNormalize_fixed (l : List Char)
    (h : ∀ c ∈ l, normChar c = true)
    (hh : ∀ c, l.head? = some c → c ≠ ' ')
    (hl : ∀ c, l.getLast? = some c → c ≠ ' ') :
    textNormalize l = l := by
  have hamp : '&' ∉ l := fun hm => (normChar_facts _ (h _ hm)).1 rfl
  have hbs : '\\' ∉ l := fun hm => (normChar_facts _ (h _ hm)).2.1 rfl
  have hdot : '.' ∉ l := fun hm => (normChar_facts _ (h _ hm)).2.2.1 rfl
  have hbr : '[' ∉ l := fun hm => (normChar_facts _ (h _ hm)).2.2.2.1 rfl
  have hap : apostChar ∉ l := fun hm => (normChar_facts _ (h _ hm)).2.2.2.2.2.1 rfl
  have hlt : ∀ c ∈ l, c.toNat < 0x2018 :=
    fun c hc => (normChar_facts _ (h _ hc)).2.2.2.2.2.2
  have hstrip := stripL_fixed l h hh hl
  have hproc : processedText l = l := by
    rw [processedText, decodeHtml_no_amp _ hamp, normalizeUnicode_ascii _ hlt,
      replaceAssN_no_bs _ hbs, replaceSrtN_no_bs _ hbs,
      replaceEllipsis_no_dot _ hdot, hstrip]
  have hre : removeEvents l = l := by
    rw [removeEvents, eventSub_no_bracket _ hbr, startSub_no_bracket _ hbr,
      endSub_fixed l h, hstrip]
  rw [textNormalize, hproc, hre, expandContractions_id l hap]

/-- C9: on any already-normalized ASCII-lowercase token stream (lowercase
letters, digits and interior single spaces), the in-repository text
normalization pipeline is idempotent: a second application leaves the result
unchanged. -/
theorem c9_normalize_idempotent (l : List Char)
    (h : ∀ c ∈ l, normChar c = true)
    (hh : ∀ c, l.head? = some c → c ≠ ' ')
    (hl : ∀ c, l.getLast? = some c → c ≠ ' ') :
    textNormalize (textNormalize l) = textNormalize l := by
  rw [textNormalize_fixed l h hh hl, textNormalize_fixed l h hh hl]

/-- Witness for C9: a concrete normalized stream. -/
theorem c9_normalize_idempotent_witness :
    textNormalize (textNormalize ("hello world 42".toList)) =
      textNormalize ("hello world 42".toList) :=
  c9_normalize_idempotent ("hello world 42".toList) (by decide) (by decide) (by decide)
